import Mathlib

/-!
# Block unlocker of the DERO mining pool (`stratum/unlocker.go`)

A shallow embedding of the block confirmation and reward-settlement code.

* `*big.Rat` values are rationals (`ℚ`); `int64` values are integers with explicit
  wrap-around (`wrapInt64`) or saturation (`ParseInt64`) where the Go code has them.
* A `float64` is `Float64`: a finite value (its exact rational), an infinity or NaN.
  Arithmetic on it rounds to nearest, ties to even (`roundFloat64`).
* A Go map is the list of its entries in iteration order (`Shares`, `RewardMap`).
* A run-time panic (nil dereference, division by zero in `big.NewRat`) is `none`.
* Collaborator calls (`rpc`, `backend`) are functions of their arguments, collected in
  `Collaborators`; every call made is appended to the `trace` of the unlocker.
-/

namespace Unlocker

/-! ## Machine numbers -/

/-- Smallest `int64`. -/
def minInt64 : Int := -(2 ^ 63)

/-- Largest `int64`. -/
def maxInt64 : Int := 2 ^ 63 - 1

/-- Two's-complement wrap-around of `int64` arithmetic. -/
def wrapInt64 (x : Int) : Int := (x + 2 ^ 63) % 2 ^ 64 - 2 ^ 63

/-- A `float64`: finite (given by its exact value), infinite, or not a number.
The sign of a zero is not kept: `big.Rat.SetFloat64` maps both zeros to `0`. -/
inductive Float64 where
  | finite (v : ℚ)
  | inf (neg : Bool)
  | nan
  deriving DecidableEq

/-- Nearest integer to a non-negative rational, ties to the even neighbour. -/
def roundHalfEven (x : ℚ) : Int :=
  let f := ⌊x⌋
  if x - f < 1 / 2 then f
  else if 1 / 2 < x - f then f + 1
  else if f % 2 = 0 then f else f + 1

/-- Binary exponent of the unit in the last place of the `float64` nearest to a positive
magnitude `a`: 53 significant bits, not below the subnormal exponent `-1074`. -/
def ulpExponent (a : ℚ) : Int := max (Int.log 2 a - 52) (-1074)

/-- IEEE 754 binary64 rounding of an exact result: round to nearest, ties to even,
overflow to infinity. -/
def roundFloat64 (q : ℚ) : Float64 :=
  if q = 0 then Float64.finite 0
  else
    let e := ulpExponent |q|
    let v := (roundHalfEven (|q| / 2 ^ e) : ℚ) * 2 ^ e
    if (2 : ℚ) ^ (1024 : Int) ≤ v then Float64.inf (decide (q < 0))
    else Float64.finite (if q < 0 then -v else v)

/-- The `float64` quotient `x / c` for a finite positive constant `c` (here `100`). -/
def Float64.divConst (x : Float64) (c : ℚ) : Float64 :=
  match x with
  | Float64.finite v => roundFloat64 (v / c)
  | Float64.inf s => Float64.inf s
  | Float64.nan => Float64.nan

/-! ## `math/big` and `strconv` -/

/-- `new(big.Rat).SetFloat64(f)`: the exact value of `f`, or `nil` when `f` is not finite. -/
def SetFloat64 (f : Float64) : Option ℚ :=
  match f with
  | Float64.finite v => some v
  | _ => none

/-- `big.NewRat(a, b)`: the fraction `a/b`; panics when `b = 0`. -/
def NewRat (a b : Int) : Option ℚ :=
  if b = 0 then none else some ((a : ℚ) / (b : ℚ))

/-- The integer printed by `x.FloatString(0)`: the quotient of `|x.num|` by `x.den`,
plus one when twice the remainder reaches the denominator, with the sign of `x`
(so halves are rounded away from zero). -/
def FloatString0 (x : ℚ) : Int :=
  let q := x.num.natAbs / x.den
  let r := x.num.natAbs % x.den
  let q' := if x.den ≤ r + r then q + 1 else q
  if x.num < 0 then -(q' : Int) else (q' : Int)

/-- `strconv.ParseInt(s, 10, 64)` on a decimal integer, error ignored: the value when it
fits in an `int64`, else the nearest `int64` bound (returned along with the range error). -/
def ParseInt64 (i : Int) : Int :=
  if maxInt64 < i then maxInt64 else if i < minInt64 then minInt64 else i

/-! ## Reward splitting -/

/-- Returns new value after fee deduction and fee value. `none` is the panic of `Mul` on the
`nil` that `SetFloat64` returns for a fee that is not finite. -/
def chargeFee (value : ℚ) (fee : Float64) : Option (ℚ × ℚ) :=
  match SetFloat64 (fee.divConst 100) with
  | none => none
  | some feePercent =>
    let feeValue := value * feePercent
    some (value - feeValue, feeValue)

/-- A `map[string]int64` of share counts, as the list of its entries in iteration order. -/
abbrev Shares := List (String × Int)

/-- A `map[string]int64` of payouts, as the list of its entries. -/
abbrev RewardMap := List (String × Int)

/-- The value `m[k]` (zero when the key is absent). -/
def RewardMap.get : RewardMap → String → Int
  | [], _ => 0
  | (k', v') :: m, k => if k' = k then v' else RewardMap.get m k

/-- The map after `m[k] += v`, in `int64` arithmetic. -/
def RewardMap.addTo : RewardMap → String → Int → RewardMap
  | [], k, v => [(k, wrapInt64 (0 + v))]
  | (k', v') :: m, k, v =>
    if k' = k then (k', wrapInt64 (v' + v)) :: m else (k', v') :: RewardMap.addTo m k v

/-- Sum of all amounts of a payout map. -/
def RewardMap.total (m : RewardMap) : Int := (m.map Prod.snd).sum

/-- The amount credited for `n` shares out of `total`: `reward × n/total`, printed with
`FloatString(0)` and parsed back as an `int64`. -/
def workerRewardInt (reward : ℚ) (n total : Int) : Option Int :=
  match NewRat n total with
  | none => none
  | some percent =>
    let workerReward := reward * percent
    some (ParseInt64 (FloatString0 workerReward))

/-- The loop of `calculateRewardsForShares` over the entries of `shares`. -/
def calculateRewardsForSharesLoop (total : Int) (reward : ℚ) :
    Shares → RewardMap → Option RewardMap
  | [], rewards => some rewards
  | (login, n) :: rest, rewards =>
    match workerRewardInt reward n total with
    | none => none
    | some w => calculateRewardsForSharesLoop total reward rest (rewards.addTo login w)

/-- Go `calculateRewardsForShares(shares, total, reward)`. -/
def calculateRewardsForShares (shares : Shares) (total : Int) (reward : ℚ) :
    Option RewardMap :=
  calculateRewardsForSharesLoop total reward shares []

/-! ## Data model -/

/-- A Go `error`, by its message. -/
abbrev Err := String

deriving instance DecidableEq for Except

/-- The fields of a candidate block (`BlockData`) that the unlocker reads or writes. -/
structure BlockData where
  Height : Int
  Hash : String
  Reward : Nat
  Orphan : Bool
  RoundHeight : Int
  Nonce : String
  TotalShares : Int
  ExtraReward : Option Int
  deriving DecidableEq

/-- The header of a block returned by the node. -/
structure BlockHeader where
  Height : Int
  Hash : String
  Reward : Nat
  Txcount : Int
  deriving DecidableEq

/-- The reply of `rpc.GetBlockByHash`. -/
structure GetBlockHashReply where
  BlockHeader : BlockHeader
  deriving DecidableEq

/-- Go `UnlockResult`. -/
structure UnlockResult where
  maturedBlocks : List BlockData
  orphanedBlocks : List BlockData
  orphans : Int
  blocks : Int
  deriving DecidableEq

/-- The options of `pool.UnlockerConfig` that the unlocker reads. -/
structure UnlockerConfig where
  PoolFee : Float64
  PoolFeeAddress : String
  Depth : Int
  deriving DecidableEq

/-- A call made to the node (`rpc`) or to the store (`backend`), with its arguments. -/
inductive Call where
  | GetInfo
  | GetBlockByHash (hash : String)
  | GetCandidates (maxHeight : Int)
  | GetImmatureBlocks (maxHeight : Int)
  | GetRoundShares (roundHeight : Int) (nonce : String)
  | WritePendingOrphans (blocks : List BlockData)
  | WriteOrphan (block : BlockData)
  | WriteImmatureBlock (block : BlockData) (roundRewards : RewardMap)
  | WriteMaturedBlock (block : BlockData) (roundRewards : RewardMap)
  deriving DecidableEq

/-- The behaviour of the node and of the store during a sweep: what each call returns.
`GetInfo` returns the chain height; a read returns a value or an error; a write returns
`none` for success or `some err`. -/
structure Collaborators where
  GetInfo : Except Err Int
  GetBlockByHash : String → Except Err (Option GetBlockHashReply)
  GetCandidates : Int → Except Err (List BlockData)
  GetImmatureBlocks : Int → Except Err (List BlockData)
  GetRoundShares : Int → String → Except Err Shares
  WritePendingOrphans : List BlockData → Option Err
  WriteOrphan : BlockData → Option Err
  WriteImmatureBlock : BlockData → RewardMap → Option Err
  WriteMaturedBlock : BlockData → RewardMap → Option Err

/-- Go `BlockUnlocker`: its configuration, the halt flag and the last error, together with
the sequence of collaborator calls made so far. -/
structure BlockUnlocker where
  config : UnlockerConfig
  halt : Bool
  lastFail : Option Err
  trace : List Call
  deriving DecidableEq

/-- What `calculateRewards` returns when it succeeds. -/
structure Rewards where
  revenue : ℚ
  minersProfit : ℚ
  poolProfit : ℚ
  rewards : RewardMap
  deriving DecidableEq

/-- Go `calculateRewards(block)`. `none` is a run-time panic, `some (.error err)` the error of
the share lookup. -/
def calculateRewards (config : UnlockerConfig)
    (GetRoundShares : Int → String → Except Err Shares) (block : BlockData) :
    Option (Except Err Rewards) :=
  let revenue : ℚ := (block.Reward : ℚ)
  match chargeFee revenue config.PoolFee with
  | none => none
  | some (minersProfit, poolProfit) =>
    match GetRoundShares block.RoundHeight block.Nonce with
    | Except.error err => some (Except.error err)
    | Except.ok shares =>
      match calculateRewardsForShares shares block.TotalShares minersProfit with
      | none => none
      | some rewards =>
        let poolProfit :=
          match block.ExtraReward with
          | some extraReward => poolProfit + (extraReward : ℚ)
          | none => poolProfit
        let revenue :=
          match block.ExtraReward with
          | some extraReward => revenue + (extraReward : ℚ)
          | none => revenue
        let rewards :=
          if config.PoolFeeAddress.length ≠ 0 then
            rewards.addTo config.PoolFeeAddress (ParseInt64 (FloatString0 poolProfit))
          else rewards
        some (Except.ok ⟨revenue, minersProfit, poolProfit, rewards⟩)

/-! ## Candidate confirmation -/

/-- Go `strings.EqualFold` restricted to ASCII strings (block hashes are hexadecimal):
equality after lower-casing the letters `A`..`Z`. Go folds by Unicode simple case folding
(it equates U+212A KELVIN SIGN with `k`); this definition agrees with it exactly when both
strings are ASCII (`isASCII`), and a match by this definition is always a match in Go. -/
def EqualFold (s t : String) : Bool :=
  decide (s.toList.map Char.toLower = t.toList.map Char.toLower)

/-- The string holds ASCII characters only, as a hexadecimal block hash does. -/
def isASCII (s : String) : Bool :=
  s.toList.all (fun ch => decide (ch.toNat < 128))

/-- Go `matchCandidate(block, candidate)`. -/
def matchCandidate (block : GetBlockHashReply) (candidate : BlockData) : Bool :=
  decide (candidate.Hash.length > 0) && EqualFold candidate.Hash block.BlockHeader.Hash

/-- Go `handleBlock(block, candidate, blockType)`: the candidate after the in-place update,
and the returned error (always `nil`). -/
def handleBlock (block : GetBlockHashReply) (candidate : BlockData) (_blockType : String) :
    BlockData × Option Err :=
  let reward := block.BlockHeader.Reward
  ({ candidate with
      Height := block.BlockHeader.Height
      Orphan := false
      Hash := block.BlockHeader.Hash
      Reward := reward }, none)

/-- The `for _, candidate := range candidates` loop of `unlockCandidates`. A matching
candidate ends the loop (`break`); a failed or empty query returns the error. -/
def unlockCandidatesLoop (env : Collaborators) (blockType : String) :
    List BlockData → BlockUnlocker → UnlockResult → BlockUnlocker × Except Err UnlockResult
  | [], u, result => (u, Except.ok result)
  | candidate :: rest, u, result =>
    let hash := candidate.Hash
    let u := { u with trace := u.trace ++ [Call.GetBlockByHash hash] }
    match env.GetBlockByHash hash with
    | Except.error err => (u, Except.error err)
    | Except.ok none =>
      (u, Except.error ("Error while retrieving block " ++ hash ++ " from node, wrong node hash"))
    | Except.ok (some block) =>
      if matchCandidate block candidate then
        let result := { result with blocks := result.blocks + 1 }
        match handleBlock block candidate blockType with
        | (_, some err) => ({ u with halt := true, lastFail := some err }, Except.error err)
        | (candidate, none) =>
          (u, Except.ok { result with maturedBlocks := result.maturedBlocks ++ [candidate] })
      else
        unlockCandidatesLoop env blockType rest u
          { result with
              orphans := result.orphans + 1
              orphanedBlocks := result.orphanedBlocks ++ [{ candidate with Orphan := true }] }

/-- Go `unlockCandidates(candidates, blockType)`: the unlocker afterwards and the returned
pair, `Except.error err` standing for `(nil, err)`. -/
def unlockCandidates (env : Collaborators) (u : BlockUnlocker) (candidates : List BlockData)
    (blockType : String) : BlockUnlocker × Except Err UnlockResult :=
  unlockCandidatesLoop env blockType candidates u ⟨[], [], 0, 0⟩

/-! ## The two sweeps -/

/-- The assignments `u.halt = true; u.lastFail = err`. -/
def BlockUnlocker.fail (u : BlockUnlocker) (err : Err) : BlockUnlocker :=
  { u with halt := true, lastFail := some err }

/-- Records a collaborator call. -/
def BlockUnlocker.call (u : BlockUnlocker) (c : Call) : BlockUnlocker :=
  { u with trace := u.trace ++ [c] }

/-- The `for _, block := range result.maturedBlocks` loop of both sweeps: compute the
rewards of each block and write them with `write` (`WriteImmatureBlock` or
`WriteMaturedBlock`). The running totals are only logged and are left out. -/
def creditBlocks (env : Collaborators) (write : BlockData → RewardMap → Option Err)
    (writeCall : BlockData → RewardMap → Call) :
    List BlockData → BlockUnlocker → Option BlockUnlocker
  | [], u => some u
  | block :: rest, u =>
    match calculateRewards u.config env.GetRoundShares block with
    | none => none
    | some (Except.error err) =>
      some ((u.call (Call.GetRoundShares block.RoundHeight block.Nonce)).fail err)
    | some (Except.ok r) =>
      let u := u.call (Call.GetRoundShares block.RoundHeight block.Nonce)
      let u := u.call (writeCall block r.rewards)
      match write block r.rewards with
      | some err => some (u.fail err)
      | none => creditBlocks env write writeCall rest u

/-- The `for _, block := range result.orphanedBlocks` loop of `unlockAndCreditMiners`. The
result is the unlocker and whether the loop ran to its end. -/
def writeOrphans (env : Collaborators) : List BlockData → BlockUnlocker → BlockUnlocker × Bool
  | [], u => (u, true)
  | block :: rest, u =>
    let u := u.call (Call.WriteOrphan block)
    match env.WriteOrphan block with
    | some err => (u.fail err, false)
    | none => writeOrphans env rest u

/-- Go `unlockPendingBlocks()`; `none` is a run-time panic. -/
def unlockPendingBlocks (env : Collaborators) (u : BlockUnlocker) : Option BlockUnlocker :=
  if u.halt then some u
  else
    let u := u.call Call.GetInfo
    match env.GetInfo with
    | Except.error err => some (u.fail err)
    | Except.ok currentHeight =>
      let u := u.call (Call.GetCandidates currentHeight)
      match env.GetCandidates currentHeight with
      | Except.error err => some (u.fail err)
      | Except.ok candidates =>
        if candidates.length = 0 then some u
        else
          match unlockCandidates env u candidates "candidates" with
          | (u, Except.error err) => some (u.fail err)
          | (u, Except.ok result) =>
            let u := u.call (Call.WritePendingOrphans result.orphanedBlocks)
            match env.WritePendingOrphans result.orphanedBlocks with
            | some err => some (u.fail err)
            | none =>
              creditBlocks env env.WriteImmatureBlock Call.WriteImmatureBlock
                result.maturedBlocks u

/-- Go `unlockAndCreditMiners()`; `none` is a run-time panic. -/
def unlockAndCreditMiners (env : Collaborators) (u : BlockUnlocker) : Option BlockUnlocker :=
  if u.halt then some u
  else
    let u := u.call Call.GetInfo
    match env.GetInfo with
    | Except.error err => some (u.fail err)
    | Except.ok currentHeight =>
      let maxHeight := wrapInt64 (currentHeight - u.config.Depth)
      let u := u.call (Call.GetImmatureBlocks maxHeight)
      match env.GetImmatureBlocks maxHeight with
      | Except.error err => some (u.fail err)
      | Except.ok immature =>
        if immature.length = 0 then some u
        else
          match unlockCandidates env u immature "immature" with
          | (u, Except.error err) => some (u.fail err)
          | (u, Except.ok result) =>
            match writeOrphans env result.orphanedBlocks u with
            | (u, false) => some u
            | (u, true) =>
              creditBlocks env env.WriteMaturedBlock Call.WriteMaturedBlock
                result.maturedBlocks u

/-- One timer tick of `StartBlockUnlocker`: the pending sweep, then the maturation sweep. -/
def tick (env : Collaborators) (u : BlockUnlocker) : Option BlockUnlocker :=
  (unlockPendingBlocks env u).bind (unlockAndCreditMiners env)

/-- The unlocker after a sequence of ticks, each with the collaborators' behaviour at that
time (`StartBlockUnlocker` runs one tick at once and one per timer interval). -/
def runTicks : List Collaborators → BlockUnlocker → Option BlockUnlocker
  | [], u => some u
  | env :: envs, u => (tick env u).bind (runTicks envs)

/-! ## Notions of the specification -/

/-- Truncation of a rational toward zero, the rounding that the specification names. -/
def truncateTowardZero (x : ℚ) : Int := if 0 ≤ x then ⌊x⌋ else ⌈x⌉

/-- Rounding of a rational to the nearest integer, halves away from zero, written from
truncation: the truncation when less than one half is cut off, else one unit further
from zero. -/
def roundHalfAwayFromZero (x : ℚ) : Int :=
  if |x - (truncateTowardZero x : ℚ)| < 1 / 2 then truncateTowardZero x
  else if 0 ≤ x then truncateTowardZero x + 1 else truncateTowardZero x - 1

/-- Collaborators whose node answers block queries by `query` and reports height `0`, and
whose store holds no candidates, no immature blocks and no shares and accepts every write. -/
def Collaborators.ofQuery (query : String → Except Err (Option GetBlockHashReply)) :
    Collaborators where
  GetInfo := Except.ok 0
  GetBlockByHash := query
  GetCandidates := fun _ => Except.ok []
  GetImmatureBlocks := fun _ => Except.ok []
  GetRoundShares := fun _ _ => Except.ok []
  WritePendingOrphans := fun _ => none
  WriteOrphan := fun _ => none
  WriteImmatureBlock := fun _ _ => none
  WriteMaturedBlock := fun _ _ => none

/-- The `int64` written into the payout map for `n` shares out of `total` (not 0):
`reward × n/total` printed with `FloatString(0)` and parsed back. -/
def sharePayout (reward : ℚ) (total n : Int) : Int :=
  ParseInt64 (FloatString0 (reward * ((n : ℚ) / (total : ℚ))))

/-- The error of a read, if it failed. -/
def Except.errorOf {α : Type} : Except Err α → Option Err
  | Except.error err => some err
  | Except.ok _ => none

/-- The error that a collaborator call returns, if it returns one. -/
def Collaborators.errorOf (env : Collaborators) : Call → Option Err
  | Call.GetInfo => Except.errorOf env.GetInfo
  | Call.GetBlockByHash hash => Except.errorOf (env.GetBlockByHash hash)
  | Call.GetCandidates maxHeight => Except.errorOf (env.GetCandidates maxHeight)
  | Call.GetImmatureBlocks maxHeight => Except.errorOf (env.GetImmatureBlocks maxHeight)
  | Call.GetRoundShares roundHeight nonce =>
    Except.errorOf (env.GetRoundShares roundHeight nonce)
  | Call.WritePendingOrphans blocks => env.WritePendingOrphans blocks
  | Call.WriteOrphan block => env.WriteOrphan block
  | Call.WriteImmatureBlock block roundRewards => env.WriteImmatureBlock block roundRewards
  | Call.WriteMaturedBlock block roundRewards => env.WriteMaturedBlock block roundRewards

/-- The unlocker `u` continues the trace `t0`, and no call made since `t0` returned an
error. -/
def CleanSince (env : Collaborators) (t0 : List Call) (u : BlockUnlocker) : Prop :=
  ∃ calls, u.trace = t0 ++ calls ∧ ∀ c ∈ calls, env.errorOf c = none

/-- The fail-fast outcome of a sweep started at the trace `t0`: whenever a call made since
`t0` returned an error, it is the last call of the trace (no call, so no write, follows
it), the halt flag is set and `lastFail` is that error. -/
def FailFast (env : Collaborators) (t0 : List Call) (u : BlockUnlocker) : Prop :=
  ∃ calls, u.trace = t0 ++ calls ∧
    ∀ pre c post err, calls = pre ++ c :: post → env.errorOf c = some err →
      post = [] ∧ u.halt = true ∧ u.lastFail = some err

/-- Every hash of the batch, and every hash the node reports for a candidate of the batch,
is ASCII: the batches on which `EqualFold` decides as Go's `strings.EqualFold` does. -/
def asciiHashes (env : Collaborators) (batch : List BlockData) : Prop :=
  ∀ p ∈ batch, isASCII p.Hash = true ∧
    ∀ b, env.GetBlockByHash p.Hash = Except.ok (some b) → isASCII b.BlockHeader.Hash = true

/-! # Lemmas -/

/-! ## Rounding lemmas -/

theorem abs_eq_natAbs_div_den (x : ℚ) : |x| = (x.num.natAbs : ℚ) / (x.den : ℚ) := by
  have hd : (0 : ℚ) < (x.den : ℚ) := by exact_mod_cast x.den_pos
  have h1 : |(x.num : ℚ)| = (x.num.natAbs : ℚ) := by
    rw [Nat.cast_natAbs, Int.cast_abs]
  calc |x| = |(x.num : ℚ) / (x.den : ℚ)| := by rw [Rat.num_div_den]
    _ = |(x.num : ℚ)| / (x.den : ℚ) := by rw [abs_div, abs_of_pos hd]
    _ = (x.num.natAbs : ℚ) / (x.den : ℚ) := by rw [h1]

/-- The integer that `FloatString(0)` prints for the magnitude `n/d`. -/
theorem roundNat_eq (n d : ℕ) (hd : 0 < d) :
    (Nat.cast (if d ≤ n % d + n % d then n / d + 1 else n / d) : ℤ) =
      ⌊(n : ℚ) / (d : ℚ)⌋ +
        (if (1 : ℚ) / 2 ≤ (n : ℚ) / (d : ℚ) - ⌊(n : ℚ) / (d : ℚ)⌋ then 1 else 0) := by
  have hdq : (0 : ℚ) < (d : ℚ) := by exact_mod_cast hd
  obtain ⟨q, hq⟩ : ∃ q : ℕ, q = n / d := ⟨_, rfl⟩
  obtain ⟨r, hr⟩ : ∃ r : ℕ, r = n % d := ⟨_, rfl⟩
  have hfl : ⌊(n : ℚ) / (d : ℚ)⌋ = (q : ℤ) := by
    rw [Rat.floor_natCast_div_natCast, hq]; simp
  have hn : (n : ℚ) = (d : ℚ) * (q : ℚ) + (r : ℚ) := by
    have h := Nat.div_add_mod n d
    rw [← hq, ← hr] at h
    exact_mod_cast h.symm
  have hfrac : (n : ℚ) / (d : ℚ) - (q : ℚ) = (r : ℚ) / (d : ℚ) := by
    field_simp
    linarith
  rw [hfl, ← hq, ← hr]
  have hcast : (((q : ℤ)) : ℚ) = (q : ℚ) := by simp
  rw [hcast, hfrac]
  have hiff : (d ≤ r + r) ↔ (1 : ℚ) / 2 ≤ (r : ℚ) / (d : ℚ) := by
    rw [div_le_div_iff₀ (by norm_num) hdq]
    constructor
    · intro h
      have h2 : (d : ℚ) ≤ (r : ℚ) + (r : ℚ) := by exact_mod_cast h
      linarith
    · intro h
      have h2 : (d : ℚ) ≤ (r : ℚ) + (r : ℚ) := by linarith
      exact_mod_cast h2
  by_cases hc : d ≤ r + r
  · rw [if_pos hc, if_pos (hiff.mp hc)]; push_cast; ring
  · rw [if_neg hc, if_neg (fun h => hc (hiff.mpr h))]; simp

theorem FloatString0_eq (x : ℚ) :
    FloatString0 x =
      if x < 0 then -(⌊|x|⌋ + (if (1 : ℚ) / 2 ≤ |x| - ⌊|x|⌋ then 1 else 0))
      else ⌊|x|⌋ + (if (1 : ℚ) / 2 ≤ |x| - ⌊|x|⌋ then 1 else 0) := by
  have h := roundNat_eq x.num.natAbs x.den x.den_pos
  rw [← abs_eq_natAbs_div_den] at h
  unfold FloatString0
  simp only [Rat.num_neg]
  rw [h]

theorem FloatString0_nonneg {x : ℚ} (hx : 0 ≤ x) : 0 ≤ FloatString0 x := by
  rw [FloatString0_eq, if_neg (not_lt.mpr hx)]
  have : 0 ≤ ⌊|x|⌋ := Int.floor_nonneg.mpr (abs_nonneg x)
  split_ifs <;> omega

theorem FloatString0_le_add_half (x : ℚ) : (FloatString0 x : ℚ) ≤ x + 1 / 2 := by
  rw [FloatString0_eq]
  have hfl := Int.floor_le |x|
  have hlt := Int.lt_floor_add_one |x|
  by_cases hx : x < 0
  · rw [if_pos hx]
    have habs : |x| = -x := abs_of_neg hx
    split_ifs with h
    · push_cast; rw [habs] at h hfl hlt ⊢; linarith
    · push_cast; rw [habs] at h hfl hlt ⊢; push_neg at h; linarith
  · rw [if_neg hx]
    have habs : |x| = x := abs_of_nonneg (not_lt.mp hx)
    split_ifs with h
    · push_cast; rw [habs] at h hfl hlt ⊢; linarith
    · push_cast; rw [habs] at h hfl hlt ⊢; linarith

theorem sub_half_le_FloatString0 (x : ℚ) : x - 1 / 2 ≤ (FloatString0 x : ℚ) := by
  rw [FloatString0_eq]
  have hfl := Int.floor_le |x|
  have hlt := Int.lt_floor_add_one |x|
  by_cases hx : x < 0
  · rw [if_pos hx]
    have habs : |x| = -x := abs_of_neg hx
    split_ifs with h
    · push_cast; rw [habs] at h hfl hlt ⊢; linarith
    · push_cast; rw [habs] at h hfl hlt ⊢; linarith
  · rw [if_neg hx]
    have habs : |x| = x := abs_of_nonneg (not_lt.mp hx)
    split_ifs with h
    · push_cast; rw [habs] at h hfl hlt ⊢; linarith
    · push_cast; rw [habs] at h hfl hlt ⊢; push_neg at h; linarith

/-! ## Lemmas on `float64` rounding -/

theorem roundHalfEven_cases (x : ℚ) :
    roundHalfEven x = ⌊x⌋ ∨ (roundHalfEven x = ⌊x⌋ + 1 ∧ (1 : ℚ) / 2 ≤ x - ⌊x⌋) := by
  unfold roundHalfEven
  simp only
  split_ifs with h1 h2 h3
  · exact Or.inl rfl
  · exact Or.inr ⟨rfl, le_of_lt h2⟩
  · exact Or.inl rfl
  · exact Or.inr ⟨rfl, not_lt.mp h1⟩

theorem roundHalfEven_nonneg {x : ℚ} (hx : 0 ≤ x) : 0 ≤ roundHalfEven x := by
  have hfl : 0 ≤ ⌊x⌋ := Int.floor_nonneg.mpr hx
  rcases roundHalfEven_cases x with h | ⟨h, _⟩ <;> omega

theorem roundHalfEven_le_int {x : ℚ} {N : ℤ} (hx : x ≤ (N : ℚ)) : roundHalfEven x ≤ N := by
  rcases roundHalfEven_cases x with h | ⟨h, hhalf⟩
  · rw [h]
    exact_mod_cast (Int.floor_le x).trans hx
  · rw [h]
    have hlt : (⌊x⌋ : ℚ) < (N : ℚ) := by linarith
    have : ⌊x⌋ < N := by exact_mod_cast hlt
    omega

theorem roundHalfEven_le_add_one (x : ℚ) : (roundHalfEven x : ℚ) ≤ x + 1 := by
  have hfl := Int.floor_le x
  rcases roundHalfEven_cases x with h | ⟨h, _⟩
  · rw [h]; linarith
  · rw [h]; push_cast; linarith

theorem ulpExponent_nonpos {a : ℚ} (ha : a ≤ 1) : ulpExponent a ≤ 0 := by
  unfold ulpExponent
  have h : Int.log 2 a ≤ 0 := by
    rw [Int.log_of_right_le_one 2 ha]
    omega
  omega

/-- A quotient in `[0, 1]` rounds to a finite `float64` in `[0, 1]`. -/
theorem roundFloat64_unit {q : ℚ} (h0 : 0 ≤ q) (h1 : q ≤ 1) :
    ∃ v : ℚ, roundFloat64 q = Float64.finite v ∧ 0 ≤ v ∧ v ≤ 1 := by
  by_cases hq : q = 0
  · exact ⟨0, by simp [roundFloat64, hq], le_refl _, by norm_num⟩
  · have habs : |q| = q := abs_of_nonneg h0
    have hpos : 0 < q := lt_of_le_of_ne h0 (Ne.symm hq)
    have he : ulpExponent q ≤ 0 := ulpExponent_nonpos h1
    obtain ⟨k, hk⟩ : ∃ k : ℕ, ulpExponent q = -(k : ℤ) := ⟨(-ulpExponent q).toNat, by omega⟩
    have hpow : (2 : ℚ) ^ (ulpExponent q) = ((2 : ℚ) ^ k)⁻¹ := by
      rw [hk, zpow_neg, zpow_natCast]
    have hpk : (0 : ℚ) < (2 : ℚ) ^ k := by positivity
    have hx0 : 0 ≤ q / (2 : ℚ) ^ (ulpExponent q) := by
      rw [hpow]; positivity
    have hxN : q / (2 : ℚ) ^ (ulpExponent q) ≤ (((2 : ℤ) ^ k : ℤ) : ℚ) := by
      rw [hpow, div_inv_eq_mul]
      push_cast
      calc q * 2 ^ k ≤ 1 * 2 ^ k := by gcongr
        _ = 2 ^ k := one_mul _
    have hr0 := roundHalfEven_nonneg hx0
    have hrN := roundHalfEven_le_int hxN
    obtain ⟨R, hR⟩ : ∃ R : ℤ, R = roundHalfEven (q / (2 : ℚ) ^ (ulpExponent q)) := ⟨_, rfl⟩
    rw [← hR] at hr0 hrN
    have hR0 : (0 : ℚ) ≤ (R : ℚ) := by exact_mod_cast hr0
    have hRN : (R : ℚ) ≤ (2 : ℚ) ^ k := by exact_mod_cast hrN
    have hv0 : (0 : ℚ) ≤ (R : ℚ) * (2 : ℚ) ^ (ulpExponent q) := by
      rw [hpow]; positivity
    have hv1 : (R : ℚ) * (2 : ℚ) ^ (ulpExponent q) ≤ 1 := by
      rw [hpow, ← div_eq_mul_inv, div_le_one hpk]
      exact hRN
    have hbig : ¬ ((2 : ℚ) ^ (1024 : ℤ) ≤ (R : ℚ) * (2 : ℚ) ^ (ulpExponent q)) := by
      intro h
      have : (1 : ℚ) < (2 : ℚ) ^ (1024 : ℤ) := by norm_num
      linarith
    refine ⟨(R : ℚ) * (2 : ℚ) ^ (ulpExponent q), ?_, hv0, hv1⟩
    simp only [roundFloat64, hq, habs, if_false, ← hR, hbig, not_lt.mpr h0]

/-- The quotient by 100 of a value of `float64` magnitude does not overflow. -/
theorem roundFloat64_div_finite {f : ℚ} (hf : |f| < (2 : ℚ) ^ (1024 : ℤ)) :
    ∃ v : ℚ, roundFloat64 (f / 100) = Float64.finite v := by
  by_cases hq : f / 100 = 0
  · exact ⟨0, by simp [roundFloat64, hq]⟩
  · have hapos : 0 < |f / 100| := abs_pos.mpr hq
    have ha : |f / 100| < (2 : ℚ) ^ (1024 : ℤ) / 100 := by
      rw [abs_div]
      have : |(100 : ℚ)| = 100 := abs_of_pos (by norm_num)
      rw [this]
      exact div_lt_div_of_pos_right hf (by norm_num)
    have hpe : (0 : ℚ) < (2 : ℚ) ^ (ulpExponent |f / 100|) := by positivity
    have hulp : (2 : ℚ) ^ (ulpExponent |f / 100|) ≤ |f / 100| + 1 := by
      unfold ulpExponent
      rcases max_cases (Int.log 2 |f / 100| - 52) (-1074) with ⟨h, _⟩ | ⟨h, _⟩
      · rw [h, zpow_sub₀ (by norm_num)]
        have hlog : ((2 : ℕ) : ℚ) ^ Int.log 2 |f / 100| ≤ |f / 100| :=
          Int.zpow_log_le_self (by norm_num) hapos
        have hlog2 : (2 : ℚ) ^ Int.log 2 |f / 100| ≤ |f / 100| := by exact_mod_cast hlog
        have h52 : (1 : ℚ) ≤ (2 : ℚ) ^ (52 : ℤ) := by norm_num
        have hnn : (0 : ℚ) ≤ (2 : ℚ) ^ Int.log 2 |f / 100| := by positivity
        calc (2 : ℚ) ^ Int.log 2 |f / 100| / (2 : ℚ) ^ (52 : ℤ)
            ≤ (2 : ℚ) ^ Int.log 2 |f / 100| / 1 := by
              apply div_le_div_of_nonneg_left hnn (by norm_num) h52
          _ = (2 : ℚ) ^ Int.log 2 |f / 100| := div_one _
          _ ≤ |f / 100| + 1 := by linarith
      · rw [h]
        have : (2 : ℚ) ^ (-1074 : ℤ) ≤ 1 := by
          rw [zpow_neg]
          apply inv_le_one_of_one_le₀
          norm_num
        linarith
    have hround := roundHalfEven_le_add_one (|f / 100| / (2 : ℚ) ^ (ulpExponent |f / 100|))
    have hv : (roundHalfEven (|f / 100| / (2 : ℚ) ^ (ulpExponent |f / 100|)) : ℚ) *
        (2 : ℚ) ^ (ulpExponent |f / 100|) ≤ 2 * |f / 100| + 1 := by
      calc (roundHalfEven (|f / 100| / (2 : ℚ) ^ (ulpExponent |f / 100|)) : ℚ) *
            (2 : ℚ) ^ (ulpExponent |f / 100|)
          ≤ (|f / 100| / (2 : ℚ) ^ (ulpExponent |f / 100|) + 1) *
            (2 : ℚ) ^ (ulpExponent |f / 100|) := by gcongr
        _ = |f / 100| + (2 : ℚ) ^ (ulpExponent |f / 100|) := by
            field_simp
        _ ≤ 2 * |f / 100| + 1 := by linarith
    have hbig : ¬ ((2 : ℚ) ^ (1024 : ℤ) ≤
        (roundHalfEven (|f / 100| / (2 : ℚ) ^ (ulpExponent |f / 100|)) : ℚ) *
        (2 : ℚ) ^ (ulpExponent |f / 100|)) := by
      intro h
      have h50 : (50 : ℚ) ≤ (2 : ℚ) ^ (1024 : ℤ) := by norm_num
      linarith
    have key : roundFloat64 (f / 100) = Float64.finite (if f / 100 < 0 then
        -((roundHalfEven (|f / 100| / (2 : ℚ) ^ (ulpExponent |f / 100|)) : ℚ) *
          (2 : ℚ) ^ (ulpExponent |f / 100|))
        else (roundHalfEven (|f / 100| / (2 : ℚ) ^ (ulpExponent |f / 100|)) : ℚ) *
          (2 : ℚ) ^ (ulpExponent |f / 100|)) := by
      simp only [roundFloat64, hq, if_false, hbig]
    exact ⟨_, key⟩

/-! ## Lemmas on `int64` arithmetic and payout maps -/

theorem wrapInt64_le {x : ℤ} (hx : minInt64 ≤ x) : wrapInt64 x ≤ x := by
  unfold wrapInt64
  unfold minInt64 at hx
  omega

theorem minInt64_le_wrapInt64 (x : ℤ) : minInt64 ≤ wrapInt64 x := by
  unfold wrapInt64 minInt64
  omega

theorem wrapInt64_eq {x : ℤ} (h1 : minInt64 ≤ x) (h2 : x ≤ maxInt64) : wrapInt64 x = x := by
  unfold wrapInt64
  unfold minInt64 at h1
  unfold maxInt64 at h2
  omega

theorem ParseInt64_nonneg {i : ℤ} (hi : 0 ≤ i) : 0 ≤ ParseInt64 i := by
  unfold ParseInt64 maxInt64 minInt64
  split_ifs <;> omega

theorem ParseInt64_le {i : ℤ} (hi : 0 ≤ i) : ParseInt64 i ≤ i := by
  unfold ParseInt64 maxInt64 minInt64
  split_ifs <;> omega

theorem ParseInt64_eq {i : ℤ} (h1 : minInt64 ≤ i) (h2 : i ≤ maxInt64) : ParseInt64 i = i := by
  unfold ParseInt64
  split_ifs <;> omega

theorem addTo_lower (m : RewardMap) (k : String) (v : ℤ)
    (hm : ∀ e ∈ m, minInt64 ≤ e.2) : ∀ e ∈ m.addTo k v, minInt64 ≤ e.2 := by
  induction m with
  | nil =>
    intro e he
    simp only [RewardMap.addTo, List.mem_singleton] at he
    rw [he]
    exact minInt64_le_wrapInt64 _
  | cons a m ih =>
    obtain ⟨k1, v1⟩ := a
    intro e he
    simp only [RewardMap.addTo] at he
    split_ifs at he with hk
    · rcases List.mem_cons.mp he with h | h
      · rw [h]; exact minInt64_le_wrapInt64 _
      · exact hm e (List.mem_cons_of_mem _ h)
    · rcases List.mem_cons.mp he with h | h
      · rw [h]; exact hm (k1, v1) (List.mem_cons_self _ _)
      · exact ih (fun e he => hm e (List.mem_cons_of_mem _ he)) e h

theorem addTo_total_le (m : RewardMap) (k : String) (v : ℤ)
    (hm : ∀ e ∈ m, minInt64 ≤ e.2) (hv : 0 ≤ v) :
    (m.addTo k v).total ≤ m.total + v := by
  induction m with
  | nil =>
    have h := wrapInt64_le (x := 0 + v) (by unfold minInt64; omega)
    simp only [RewardMap.addTo, RewardMap.total, List.map_cons, List.map_nil, List.sum_cons,
      List.sum_nil]
    omega
  | cons a m ih =>
    obtain ⟨k1, v1⟩ := a
    have h1 : minInt64 ≤ v1 := hm (k1, v1) (List.mem_cons_self _ _)
    have ih2 := ih (fun e he => hm e (List.mem_cons_of_mem _ he))
    simp only [RewardMap.addTo]
    split_ifs with hk
    · have h := wrapInt64_le (x := v1 + v) (by omega)
      simp only [RewardMap.total, List.map_cons, List.sum_cons]
      omega
    · simp only [RewardMap.total, List.map_cons, List.sum_cons] at ih2 ⊢
      omega

/-- The exact shares of a ledger, each with the half unit that rounding may add. -/
theorem sum_exact_shares (reward : ℚ) (total : ℤ) (shares : Shares) :
    (shares.map (fun e => reward * ((e.2 : ℚ) / (total : ℚ)) + 1 / 2)).sum =
      reward * ((((shares.map Prod.snd).sum : ℤ) : ℚ) / (total : ℚ)) + (shares.length : ℚ) / 2 := by
  induction shares with
  | nil => simp
  | cons a rest ih =>
    simp only [List.map_cons, List.sum_cons, List.length_cons, ih]
    push_cast
    ring

theorem workerRewardInt_bound {reward : ℚ} {n total : ℤ} (hr : 0 ≤ reward) (hn : 0 ≤ n)
    (ht : 0 < total) :
    ∃ w, workerRewardInt reward n total = some w ∧ 0 ≤ w ∧
      (w : ℚ) ≤ reward * ((n : ℚ) / (total : ℚ)) + 1 / 2 := by
  have hne : total ≠ 0 := ne_of_gt ht
  have hx : 0 ≤ reward * ((n : ℚ) / (total : ℚ)) := by
    have h1 : (0 : ℚ) ≤ (n : ℚ) := by exact_mod_cast hn
    have h2 : (0 : ℚ) < (total : ℚ) := by exact_mod_cast ht
    positivity
  have hf := FloatString0_nonneg hx
  refine ⟨ParseInt64 (FloatString0 (reward * ((n : ℚ) / (total : ℚ)))), ?_,
    ParseInt64_nonneg hf, ?_⟩
  · simp [workerRewardInt, NewRat, hne]
  · have h1 : ((ParseInt64 (FloatString0 (reward * ((n : ℚ) / (total : ℚ)))) : ℤ) : ℚ) ≤
        (FloatString0 (reward * ((n : ℚ) / (total : ℚ))) : ℚ) := by
      exact_mod_cast ParseInt64_le hf
    exact h1.trans (FloatString0_le_add_half _)

theorem loop_total_le {reward : ℚ} {total : ℤ} (hr : 0 ≤ reward) (ht : 0 < total)
    (shares : Shares) (hn : ∀ e ∈ shares, 0 ≤ e.2) (acc : RewardMap)
    (hacc : ∀ e ∈ acc, minInt64 ≤ e.2) :
    ∃ m, calculateRewardsForSharesLoop total reward shares acc = some m ∧
      (∀ e ∈ m, minInt64 ≤ e.2) ∧
      (m.total : ℚ) ≤ (acc.total : ℚ) +
        (shares.map (fun e => reward * ((e.2 : ℚ) / (total : ℚ)) + 1 / 2)).sum := by
  induction shares generalizing acc with
  | nil => exact ⟨acc, rfl, hacc, by simp⟩
  | cons a rest ih =>
    obtain ⟨login, n⟩ := a
    obtain ⟨w, hw, hw0, hwle⟩ :=
      workerRewardInt_bound hr (hn (login, n) (List.mem_cons_self _ _)) ht
    obtain ⟨m, hm, hlow, hle⟩ := ih (fun e he => hn e (List.mem_cons_of_mem _ he))
      (acc.addTo login w) (addTo_lower acc login w hacc)
    refine ⟨m, ?_, hlow, ?_⟩
    · simp only [calculateRewardsForSharesLoop, hw, hm]
    · have hadd : ((acc.addTo login w).total : ℚ) ≤ (acc.total : ℚ) + (w : ℚ) := by
        exact_mod_cast addTo_total_le acc login w hacc hw0
      simp only [List.map_cons, List.sum_cons]
      linarith

/-! ## Reward splitting: claims -/

theorem chargeFee_of_unit {f : ℚ} (hf0 : 0 ≤ f) (hf100 : f ≤ 100) (value : ℚ) :
    ∃ p : ℚ, 0 ≤ p ∧ p ≤ 1 ∧
      chargeFee value (Float64.finite f) = some (value - value * p, value * p) := by
  obtain ⟨p, hp, hp0, hp1⟩ := roundFloat64_unit (q := f / 100) (by positivity)
    (by rw [div_le_one (by norm_num)]; exact hf100)
  exact ⟨p, hp0, hp1, by simp [chargeFee, Float64.divConst, hp, SetFloat64]⟩

/-- C1 (amended). For a matured block whose share counts are non-negative and sum to
`TotalShares > 0`, whose pool fee is between 0 and 100 percent and whose extra reward, if
present, is non-negative, `calculateRewards` returns, and the payout amounts it returns (the
per-participant payouts and the fee-address credit) sum to at most `revenue + (k + 1) / 2`
for `k` participants: every amount is rounded to the nearest integer, not truncated. -/
theorem calculateRewards_total_le_revenue_add (config : UnlockerConfig)
    (getShares : Int → String → Except Err Shares) (block : BlockData) (shares : Shares)
    (f : ℚ) (hfee : config.PoolFee = Float64.finite f) (hf0 : 0 ≤ f) (hf100 : f ≤ 100)
    (hshares : getShares block.RoundHeight block.Nonce = Except.ok shares)
    (hnonneg : ∀ e ∈ shares, 0 ≤ e.2)
    (hsum : (shares.map Prod.snd).sum = block.TotalShares)
    (htotal : 0 < block.TotalShares)
    (hextra : ∀ x, block.ExtraReward = some x → 0 ≤ x) :
    ∃ r, calculateRewards config getShares block = some (Except.ok r) ∧
      (r.rewards.total : ℚ) ≤ r.revenue + ((shares.length : ℚ) + 1) / 2 := by
  obtain ⟨p, hp0, hp1, hcharge⟩ := chargeFee_of_unit hf0 hf100 (block.Reward : ℚ)
  have hrev : (0 : ℚ) ≤ (block.Reward : ℚ) := Nat.cast_nonneg _
  have hmp : (0 : ℚ) ≤ (block.Reward : ℚ) - (block.Reward : ℚ) * p := by nlinarith
  have hpp : (0 : ℚ) ≤ (block.Reward : ℚ) * p := mul_nonneg hrev hp0
  obtain ⟨m, hm, hlow, hle⟩ := loop_total_le hmp htotal shares hnonneg []
    (by intro e he; cases he)
  have hT : ((block.TotalShares : ℤ) : ℚ) ≠ 0 := by exact_mod_cast (ne_of_gt htotal)
  rw [sum_exact_shares, hsum, div_self hT, mul_one] at hle
  have hm0 : ((RewardMap.total [] : ℤ) : ℚ) = 0 := by simp [RewardMap.total]
  rw [hm0, zero_add] at hle
  have hk : (0 : ℚ) ≤ (shares.length : ℚ) := Nat.cast_nonneg _
  unfold calculateRewards
  rw [hfee]
  simp only [hcharge, hshares, calculateRewardsForShares, hm]
  refine ⟨_, rfl, ?_⟩
  simp only
  cases hx : block.ExtraReward with
  | none =>
    simp only
    split_ifs with haddr
    · have hP0 := ParseInt64_nonneg (FloatString0_nonneg hpp)
      have hadd : ((m.addTo config.PoolFeeAddress
          (ParseInt64 (FloatString0 ((block.Reward : ℚ) * p)))).total : ℚ) ≤
          (m.total : ℚ) + (ParseInt64 (FloatString0 ((block.Reward : ℚ) * p)) : ℚ) := by
        exact_mod_cast addTo_total_le m _ _ hlow hP0
      have hP1 : ((ParseInt64 (FloatString0 ((block.Reward : ℚ) * p)) : ℤ) : ℚ) ≤
          (FloatString0 ((block.Reward : ℚ) * p) : ℚ) := by
        exact_mod_cast ParseInt64_le (FloatString0_nonneg hpp)
      have hP2 := FloatString0_le_add_half ((block.Reward : ℚ) * p)
      linarith
    · linarith
  | some x =>
    have hx0 : (0 : ℚ) ≤ (x : ℚ) := by exact_mod_cast hextra x hx
    have hpp2 : (0 : ℚ) ≤ (block.Reward : ℚ) * p + (x : ℚ) := by linarith
    simp only
    split_ifs with haddr
    · have hP0 := ParseInt64_nonneg (FloatString0_nonneg hpp2)
      have hadd : ((m.addTo config.PoolFeeAddress
          (ParseInt64 (FloatString0 ((block.Reward : ℚ) * p + (x : ℚ))))).total : ℚ) ≤
          (m.total : ℚ) + (ParseInt64 (FloatString0 ((block.Reward : ℚ) * p + (x : ℚ))) : ℚ) := by
        exact_mod_cast addTo_total_le m _ _ hlow hP0
      have hP1 : ((ParseInt64 (FloatString0 ((block.Reward : ℚ) * p + (x : ℚ))) : ℤ) : ℚ) ≤
          (FloatString0 ((block.Reward : ℚ) * p + (x : ℚ)) : ℚ) := by
        exact_mod_cast ParseInt64_le (FloatString0_nonneg hpp2)
      have hP2 := FloatString0_le_add_half ((block.Reward : ℚ) * p + (x : ℚ))
      linarith
    · linarith

/-- C1 as stated fails: block reward 1, fee 0, shares `A:1, B:1` of 2 in total give the
payouts `A = 1`, `B = 1`, whose sum 2 exceeds `floor(revenue) = 1`. -/
theorem calculateRewards_sum_exceeds_floor_revenue :
    calculateRewards ⟨Float64.finite 0, "", 0⟩ (fun _ _ => Except.ok [("A", 1), ("B", 1)])
        ⟨0, "", 1, false, 0, "", 2, none⟩ =
      some (Except.ok ⟨1, 1, 0, [("A", 1), ("B", 1)]⟩) ∧
    (([("A", 1), ("B", 1)] : Shares).map Prod.snd).sum = 2 ∧
    ⌊(1 : ℚ)⌋ < RewardMap.total [("A", 1), ("B", 1)] := by
  decide!

/-- The bound of C1 (amended) at block reward 1, fee 0, shares `A:1, B:1`. -/
theorem calculateRewards_total_le_revenue_add_witness :
    ∃ r, calculateRewards ⟨Float64.finite 0, "", 0⟩
        (fun _ _ => Except.ok [("A", 1), ("B", 1)]) ⟨0, "", 1, false, 0, "", 2, none⟩ =
          some (Except.ok r) ∧
      (r.rewards.total : ℚ) ≤ r.revenue + ((([("A", 1), ("B", 1)] : Shares).length : ℚ) + 1) / 2 :=
  calculateRewards_total_le_revenue_add ⟨Float64.finite 0, "", 0⟩
    (fun _ _ => Except.ok [("A", 1), ("B", 1)]) ⟨0, "", 1, false, 0, "", 2, none⟩
    [("A", 1), ("B", 1)] 0 rfl (le_refl 0) (by norm_num) rfl (by decide) (by decide)
    (by decide) (by simp)

theorem FloatString0_eq_roundHalfAwayFromZero (x : ℚ) :
    FloatString0 x = roundHalfAwayFromZero x := by
  rw [FloatString0_eq]
  unfold roundHalfAwayFromZero truncateTowardZero
  by_cases hx : x < 0
  · have habs : |x| = -x := abs_of_neg hx
    have hceil : ⌈x⌉ = -⌊-x⌋ := by rw [Int.floor_neg]; simp
    have hfr : |x - ((-⌊-x⌋ : ℤ) : ℚ)| = -x - (⌊-x⌋ : ℚ) := by
      push_cast
      rw [abs_of_nonpos (by linarith [Int.floor_le (-x)])]
      ring
    rw [if_pos hx, if_neg (not_le.mpr hx), if_neg (not_le.mpr hx), habs, hceil, hfr]
    by_cases hh : (1 : ℚ) / 2 ≤ -x - (⌊-x⌋ : ℚ)
    · rw [if_pos hh, if_neg (not_lt.mpr hh)]; ring
    · rw [if_neg hh, if_pos (not_le.mp hh)]; ring
  · have hx0 : 0 ≤ x := not_lt.mp hx
    have habs : |x| = x := abs_of_nonneg hx0
    have hfr : |x - (⌊x⌋ : ℚ)| = x - (⌊x⌋ : ℚ) :=
      abs_of_nonneg (by linarith [Int.floor_le x])
    rw [if_neg hx, if_pos hx0, if_pos hx0, habs, hfr]
    by_cases hh : (1 : ℚ) / 2 ≤ x - (⌊x⌋ : ℚ)
    · rw [if_pos hh, if_neg (not_lt.mpr hh)]
    · rw [if_neg hh, if_pos (not_le.mp hh)]; ring

theorem ParseInt64_bounds (i : ℤ) : minInt64 ≤ ParseInt64 i ∧ ParseInt64 i ≤ maxInt64 := by
  unfold ParseInt64 maxInt64 minInt64
  split_ifs <;> omega

theorem get_addTo_self (m : RewardMap) (k : String) (v : ℤ) :
    (m.addTo k v).get k = wrapInt64 (m.get k + v) := by
  induction m with
  | nil => simp [RewardMap.addTo, RewardMap.get]
  | cons a m ih =>
    obtain ⟨k1, v1⟩ := a
    by_cases hk : k1 = k
    · simp [RewardMap.addTo, RewardMap.get, hk]
    · simp [RewardMap.addTo, RewardMap.get, hk, ih]

theorem get_addTo_ne (m : RewardMap) {k k2 : String} (v : ℤ) (hne : k ≠ k2) :
    (m.addTo k v).get k2 = m.get k2 := by
  induction m with
  | nil => simp [RewardMap.addTo, RewardMap.get, hne]
  | cons a m ih =>
    obtain ⟨k1, v1⟩ := a
    by_cases hk : k1 = k
    · have hk2 : ¬ k1 = k2 := fun h => hne (hk.symm.trans h)
      simp [RewardMap.addTo, RewardMap.get, hk, hne]
    · by_cases hk2 : k1 = k2
      · simp only [RewardMap.addTo, if_neg hk, RewardMap.get, if_pos hk2]
      · simp only [RewardMap.addTo, if_neg hk, RewardMap.get, if_neg hk2, ih]

theorem workerRewardInt_of_ne_zero (reward : ℚ) (n : ℤ) {total : ℤ} (ht : total ≠ 0) :
    workerRewardInt reward n total =
      some (ParseInt64 (FloatString0 (reward * ((n : ℚ) / (total : ℚ))))) := by
  simp [workerRewardInt, NewRat, ht]

/-- The loop returns for a non-zero total; a login outside the ledger keeps its amount, and
a login of a ledger with distinct logins receives its own rounded share once. -/
theorem loop_get {total : ℤ} (ht : total ≠ 0) (reward : ℚ) (shares : Shares)
    (acc : RewardMap) :
    ∃ m, calculateRewardsForSharesLoop total reward shares acc = some m ∧
      (∀ login, login ∉ shares.map Prod.fst → m.get login = acc.get login) ∧
      ((shares.map Prod.fst).Nodup → ∀ login n, (login, n) ∈ shares →
        m.get login = wrapInt64 (acc.get login +
          ParseInt64 (FloatString0 (reward * ((n : ℚ) / (total : ℚ)))))) := by
  induction shares generalizing acc with
  | nil =>
    refine ⟨acc, rfl, fun _ _ => rfl, ?_⟩
    intro _ login n h
    cases h
  | cons a rest ih =>
    obtain ⟨k, nk⟩ := a
    obtain ⟨m, hm, hout, hin⟩ := ih (acc.addTo k
      (ParseInt64 (FloatString0 (reward * ((nk : ℚ) / (total : ℚ))))))
    refine ⟨m, ?_, ?_, ?_⟩
    · simp only [calculateRewardsForSharesLoop, workerRewardInt_of_ne_zero reward nk ht, hm]
    · intro login hnot
      simp only [List.map_cons, List.mem_cons, not_or] at hnot
      rw [hout login hnot.2, get_addTo_ne _ _ (Ne.symm hnot.1)]
    · intro hnodup login n hmem
      simp only [List.map_cons, List.nodup_cons] at hnodup
      rcases List.mem_cons.mp hmem with h | h
      · obtain ⟨h1, h2⟩ := Prod.mk.inj h
        subst h1; subst h2
        rw [hout login hnodup.1, get_addTo_self]
      · have hne : k ≠ login := by
          intro hk
          apply hnodup.1
          rw [hk]
          exact List.mem_map_of_mem Prod.fst h
        rw [hin hnodup.2 login n h, get_addTo_ne _ _ hne]

/-- C2 (amended). For every reward, every `totalShares` different from 0 and every participant
with share count `n` in a share map (distinct logins), `calculateRewardsForShares` returns
and that participant's payout is the exact rational `reward × n / totalShares` rounded to
the nearest integer with halves away from zero (the truncation toward zero only when less
than one half is cut off), whenever that value fits in a signed 64-bit integer. -/
theorem calculateRewardsForShares_payout (shares : Shares) (total : ℤ) (reward : ℚ)
    (login : String) (n : ℤ) (ht : total ≠ 0) (hnodup : (shares.map Prod.fst).Nodup)
    (hmem : (login, n) ∈ shares)
    (hmin : minInt64 ≤ roundHalfAwayFromZero (reward * (n : ℚ) / (total : ℚ)))
    (hmax : roundHalfAwayFromZero (reward * (n : ℚ) / (total : ℚ)) ≤ maxInt64) :
    ∃ m, calculateRewardsForShares shares total reward = some m ∧
      m.get login = roundHalfAwayFromZero (reward * (n : ℚ) / (total : ℚ)) := by
  obtain ⟨m, hm, _, hin⟩ := loop_get ht reward shares []
  refine ⟨m, hm, ?_⟩
  rw [hin hnodup login n hmem, ← mul_div_assoc, FloatString0_eq_roundHalfAwayFromZero,
    ParseInt64_eq hmin hmax]
  simp only [RewardMap.get, zero_add]
  exact wrapInt64_eq hmin hmax

/-- C2 as stated fails: for reward 1 and one share out of 2 the payout is 1, while the exact
share 1/2 truncated toward zero is 0. -/
theorem calculateRewardsForShares_not_truncation :
    calculateRewardsForShares [("A", 1)] 2 1 = some [("A", 1)] ∧
      RewardMap.get [("A", 1)] "A" ≠ truncateTowardZero (1 * (1 : ℚ) / (2 : ℚ)) := by
  decide!

/-- The payout of C2 (amended) for 60 shares out of 100 of a reward of 990: 594. -/
theorem calculateRewardsForShares_payout_witness :
    ∃ m, calculateRewardsForShares [("A", 60), ("B", 40)] 100 990 = some m ∧
      m.get "A" = roundHalfAwayFromZero (990 * ((60 : ℤ) : ℚ) / ((100 : ℤ) : ℚ)) :=
  calculateRewardsForShares_payout [("A", 60), ("B", 40)] 100 990 "A" 60 (by decide)
    (by decide) (by decide) (by decide!) (by decide!)

theorem chargeFee_of_quotient {f p : ℚ} (hp : roundFloat64 (f / 100) = Float64.finite p)
    (value : ℚ) :
    chargeFee value (Float64.finite f) = some (value - value * p, value * p) := by
  simp [chargeFee, Float64.divConst, hp, SetFloat64]

/-- C4. For every value and every finite fee (a `float64` of magnitude below `2^1024`),
`chargeFee(value, fee)` returns a pair `(minersProfit, poolProfit)` with
`minersProfit + poolProfit = value` exactly, as rationals. -/
theorem chargeFee_sum (value f : ℚ) (hf : |f| < (2 : ℚ) ^ (1024 : ℤ)) :
    ∃ minersProfit poolProfit : ℚ,
      chargeFee value (Float64.finite f) = some (minersProfit, poolProfit) ∧
        minersProfit + poolProfit = value := by
  obtain ⟨p, hp⟩ := roundFloat64_div_finite hf
  exact ⟨value - value * p, value * p, chargeFee_of_quotient hp value, by ring⟩

/-- The fee invariant of C4 at value 1000 and fee 1. -/
theorem chargeFee_sum_witness :
    ∃ minersProfit poolProfit : ℚ,
      chargeFee 1000 (Float64.finite 1) = some (minersProfit, poolProfit) ∧
        minersProfit + poolProfit = 1000 :=
  chargeFee_sum 1000 1 (by norm_num)

/-- C5 (amended). For every revenue `r` and finite fee percent `p`, `chargeFee` yields
`poolProfit = r × φ` and `minersProfit = r − r × φ` as exact rationals, where `φ` is the
`float64` quotient `p / 100` (the nearest `float64`, which need not equal `p / 100`); for
block reward 1000, fee 1%, shares `A:60, B:40` and `totalShares` 100 the quotient is
`φ = 5764607523034235 / 2^59`, so `minersProfit = 1000 − 1000 φ` and `poolProfit = 1000 φ`,
and the payouts are `A = 594`, `B = 396`. -/
theorem chargeFee_float_quotient (r p : ℚ) (hp : |p| < (2 : ℚ) ^ (1024 : ℤ)) :
    (∃ φ : ℚ, (Float64.finite p).divConst 100 = Float64.finite φ ∧
      chargeFee r (Float64.finite p) = some (r - r * φ, r * φ)) ∧
    calculateRewards ⟨Float64.finite 1, "", 0⟩ (fun _ _ => Except.ok [("A", 60), ("B", 40)])
        ⟨0, "", 1000, false, 0, "", 100, none⟩ =
      some (Except.ok ⟨1000, 1000 - 1000 * (5764607523034235 / 2 ^ 59),
        1000 * (5764607523034235 / 2 ^ 59), [("A", 594), ("B", 396)]⟩) := by
  refine ⟨?_, by decide!⟩
  obtain ⟨φ, hφ⟩ := roundFloat64_div_finite hp
  exact ⟨φ, hφ, chargeFee_of_quotient hφ r⟩

/-- C5 as stated fails: for revenue 1000 and fee 1 the pool's profit is not
`1000 × 1 / 100 = 10` and the miners' profit is not 990, because the `float64` quotient
`1 / 100` is not the rational `1/100`. -/
theorem chargeFee_not_exact_percent :
    chargeFee 1000 (Float64.finite 1) =
        some (1000 - 1000 * (5764607523034235 / 2 ^ 59), 1000 * (5764607523034235 / 2 ^ 59)) ∧
      (1000 : ℚ) * (5764607523034235 / 2 ^ 59) ≠ 1000 * 1 / 100 ∧
      (1000 : ℚ) - 1000 * (5764607523034235 / 2 ^ 59) ≠ 1000 - 1000 * 1 / 100 := by
  decide!

/-- The split of C5 (amended) at revenue 1000 and fee 1. -/
theorem chargeFee_float_quotient_witness :
    ∃ φ : ℚ, (Float64.finite 1).divConst 100 = Float64.finite φ ∧
      chargeFee 1000 (Float64.finite 1) = some (1000 - 1000 * φ, 1000 * φ) :=
  (chargeFee_float_quotient 1000 1 (by norm_num)).1

/-- C6 (amended). When a fee-collecting address is configured (fee finite, `TotalShares`
not 0, share lookup successful), `calculateRewards` returns and adds to that address's
entry only the pool's own share, `poolProfit` rounded to an integer; the remainder that
per-participant rounding leaves unallocated is credited to nobody: for block reward 100,
fee 0%, shares `A:1, B:1, C:1`, `totalShares` 3 and the fee address `pool`, the payouts
are `A = 33`, `B = 33`, `C = 33` and fee address `= 0`. -/
theorem calculateRewards_fee_address_credit (config : UnlockerConfig)
    (getShares : Int → String → Except Err Shares) (block : BlockData) (shares : Shares)
    (f : ℚ) (hfee : config.PoolFee = Float64.finite f) (hf : |f| < (2 : ℚ) ^ (1024 : ℤ))
    (haddr : config.PoolFeeAddress.length ≠ 0)
    (hshares : getShares block.RoundHeight block.Nonce = Except.ok shares)
    (htotal : block.TotalShares ≠ 0) :
    (∃ r m, calculateRewards config getShares block = some (Except.ok r) ∧
      calculateRewardsForShares shares block.TotalShares r.minersProfit = some m ∧
      r.rewards = m.addTo config.PoolFeeAddress (ParseInt64 (FloatString0 r.poolProfit))) ∧
    calculateRewards ⟨Float64.finite 0, "pool", 0⟩
        (fun _ _ => Except.ok [("A", 1), ("B", 1), ("C", 1)])
        ⟨0, "", 100, false, 0, "", 3, none⟩ =
      some (Except.ok ⟨100, 100, 0, [("A", 33), ("B", 33), ("C", 33), ("pool", 0)]⟩) := by
  refine ⟨?_, by decide!⟩
  obtain ⟨p, hp⟩ := roundFloat64_div_finite hf
  have hcharge := chargeFee_of_quotient hp (block.Reward : ℚ)
  obtain ⟨m, hm, _, _⟩ := loop_get htotal ((block.Reward : ℚ) - (block.Reward : ℚ) * p) shares []
  unfold calculateRewards
  rw [hfee]
  simp only [hcharge, hshares, calculateRewardsForShares, hm, if_pos haddr]
  exact ⟨_, m, rfl, hm, rfl⟩

/-- C6 as stated fails: for block reward 100, fee 0%, shares `A:1, B:1, C:1` of 3 and the
fee address `pool`, the participants receive 33 each, one unit of `minersProfit = 100`
stays unallocated, and the fee address is credited 0, not 1. -/
theorem calculateRewards_remainder_not_credited :
    ∃ r, calculateRewards ⟨Float64.finite 0, "pool", 0⟩
        (fun _ _ => Except.ok [("A", 1), ("B", 1), ("C", 1)])
        ⟨0, "", 100, false, 0, "", 3, none⟩ = some (Except.ok r) ∧
      r.rewards.get "A" = 33 ∧ r.rewards.get "B" = 33 ∧ r.rewards.get "C" = 33 ∧
      r.minersProfit - (33 + 33 + 33) = 1 ∧ r.rewards.get "pool" ≠ 1 :=
  ⟨⟨100, 100, 0, [("A", 33), ("B", 33), ("C", 33), ("pool", 0)]⟩, by decide!⟩

/-- The fee-address credit of C6 (amended) for block reward 1000, fee 1%, shares `A:60, B:40`
and the fee address `pool`. -/
theorem calculateRewards_fee_address_credit_witness :
    ∃ r m, calculateRewards ⟨Float64.finite 1, "pool", 0⟩
        (fun _ _ => Except.ok [("A", 60), ("B", 40)])
        ⟨0, "", 1000, false, 0, "", 100, none⟩ = some (Except.ok r) ∧
      calculateRewardsForShares [("A", 60), ("B", 40)] 100 r.minersProfit = some m ∧
      r.rewards = m.addTo "pool" (ParseInt64 (FloatString0 r.poolProfit)) :=
  (calculateRewards_fee_address_credit ⟨Float64.finite 1, "pool", 0⟩
    (fun _ _ => Except.ok [("A", 60), ("B", 40)]) ⟨0, "", 1000, false, 0, "", 100, none⟩
    [("A", 60), ("B", 40)] 1 rfl (by norm_num) (by decide) rfl (by decide)).1

/-! ## Candidate confirmation: lemmas -/

/-- The accumulated result after the candidates of `pre` were all classified as orphans. -/
theorem unlockCandidatesLoop_orphans (env : Collaborators) (blockType : String)
    (pre rest : List BlockData) (u : BlockUnlocker) (acc : UnlockResult)
    (hpre : ∀ p ∈ pre, ∃ b, env.GetBlockByHash p.Hash = Except.ok (some b) ∧
      matchCandidate b p = false) :
    unlockCandidatesLoop env blockType (pre ++ rest) u acc =
      unlockCandidatesLoop env blockType rest
        { u with trace := u.trace ++ pre.map (fun p => Call.GetBlockByHash p.Hash) }
        { acc with
            orphans := acc.orphans + (pre.length : ℤ)
            orphanedBlocks :=
              acc.orphanedBlocks ++ pre.map (fun p => { p with Orphan := true }) } := by
  induction pre generalizing u acc with
  | nil => simp
  | cons c pre ih =>
    obtain ⟨b, hb, hmatch⟩ := hpre c (List.mem_cons_self _ _)
    have ih2 := ih { u with trace := u.trace ++ [Call.GetBlockByHash c.Hash] }
      { acc with
          orphans := acc.orphans + 1
          orphanedBlocks := acc.orphanedBlocks ++ [{ c with Orphan := true }] }
      (fun p hp => hpre p (List.mem_cons_of_mem _ hp))
    rw [List.cons_append]
    simp only [unlockCandidatesLoop, hb, hmatch, Bool.false_eq_true, if_false]
    rw [ih2]
    simp only [List.append_assoc, List.map_cons, List.singleton_append, List.length_cons,
      Nat.cast_add, Nat.cast_one]
    congr 2
    ring

/-- What the loop returns extends the orphans accumulated so far, and each matured block it
adds is the update of a matching candidate of the list. -/
theorem unlockCandidatesLoop_extends (env : Collaborators) (blockType : String)
    (rest : List BlockData) (u : BlockUnlocker) (acc : UnlockResult) (r : UnlockResult)
    (h : (unlockCandidatesLoop env blockType rest u acc).2 = Except.ok r) :
    acc.orphanedBlocks <+: r.orphanedBlocks ∧
      ∀ m ∈ r.maturedBlocks, m ∈ acc.maturedBlocks ∨
        ∃ c ∈ rest, ∃ b, env.GetBlockByHash c.Hash = Except.ok (some b) ∧
          matchCandidate b c = true ∧ m = (handleBlock b c blockType).1 := by
  induction rest generalizing u acc with
  | nil =>
    simp only [unlockCandidatesLoop] at h
    obtain rfl := Except.ok.inj h
    exact ⟨List.prefix_refl _, fun m hm => Or.inl hm⟩
  | cons c rest ih =>
    simp only [unlockCandidatesLoop] at h
    cases hq : env.GetBlockByHash c.Hash with
    | error err => rw [hq] at h; cases h
    | ok ob =>
      cases ob with
      | none => rw [hq] at h; cases h
      | some b =>
        rw [hq] at h
        by_cases hmatch : matchCandidate b c = true
        · simp only [hmatch, if_true, handleBlock] at h
          obtain rfl := Except.ok.inj h
          refine ⟨List.prefix_refl _, ?_⟩
          intro m hm
          rcases List.mem_append.mp hm with h1 | h1
          · exact Or.inl h1
          · refine Or.inr ⟨c, List.mem_cons_self _ _, b, hq, hmatch, ?_⟩
            simpa [handleBlock] using h1
        · simp only [hmatch, Bool.false_eq_true, if_false] at h
          obtain ⟨hpre, hmat⟩ := ih _ _ h
          refine ⟨(List.prefix_append _ _).trans hpre, ?_⟩
          intro m hm
          rcases hmat m hm with h1 | ⟨c2, hc2, b2, hb2, hm2, heq⟩
          · exact Or.inl h1
          · exact Or.inr ⟨c2, List.mem_cons_of_mem _ hc2, b2, hb2, hm2, heq⟩

/-! ## Candidate confirmation: claims -/

theorem matchCandidate_iff (b : GetBlockHashReply) (c : BlockData) :
    matchCandidate b c = true ↔
      (0 < c.Hash.length ∧ EqualFold c.Hash b.BlockHeader.Hash = true) := by
  simp [matchCandidate]

/-- C3. Evaluation at a batch of two candidates that are both on the chain: the result is
returned without error, its matured list holds only the first candidate and its orphaned
list is empty, so the second candidate is in neither list. -/
theorem unlockCandidates_omits_after_match :
    unlockCandidates
        (Collaborators.ofQuery (fun h =>
          if h = "aa" then Except.ok (some ⟨⟨10, "aa", 500, 1⟩⟩)
          else Except.ok (some ⟨⟨11, "bb", 600, 1⟩⟩)))
        ⟨⟨Float64.finite 0, "", 0⟩, false, none, []⟩
        [⟨10, "aa", 0, false, 10, "n1", 5, none⟩, ⟨11, "bb", 0, false, 11, "n2", 7, none⟩]
        "candidates" =
      (⟨⟨Float64.finite 0, "", 0⟩, false, none, [Call.GetBlockByHash "aa"]⟩,
        Except.ok ⟨[⟨10, "aa", 500, false, 10, "n1", 5, none⟩], [], 0, 1⟩) := by
  decide!

/-- C7 (amended). When the loop of `unlockCandidates` reaches a candidate (every earlier
candidate was classified as orphaned) for which the chain query succeeds but returns no
block, `unlockCandidates` returns the error `wrong node hash` for it and no result: the
candidate is not classified as orphaned. -/
theorem unlockCandidates_no_block_is_error (env : Collaborators) (u : BlockUnlocker)
    (pre : List BlockData) (c : BlockData) (post : List BlockData) (blockType : String)
    (hpre : ∀ p ∈ pre, ∃ b, env.GetBlockByHash p.Hash = Except.ok (some b) ∧
      matchCandidate b p = false)
    (hq : env.GetBlockByHash c.Hash = Except.ok none) :
    (unlockCandidates env u (pre ++ c :: post) blockType).2 =
      Except.error ("Error while retrieving block " ++ c.Hash ++ " from node, wrong node hash") := by
  unfold unlockCandidates
  rw [unlockCandidatesLoop_orphans env blockType pre (c :: post) u _ hpre]
  simp only [unlockCandidatesLoop, hq]

/-- C7 as stated fails: for a single candidate whose query succeeds with no block,
`unlockCandidates` returns an error and no list of orphans. -/
theorem unlockCandidates_no_block_not_orphan :
    unlockCandidates (Collaborators.ofQuery (fun _ => Except.ok none))
        ⟨⟨Float64.finite 0, "", 0⟩, false, none, []⟩
        [⟨10, "aa", 0, false, 10, "n1", 5, none⟩] "candidates" =
      (⟨⟨Float64.finite 0, "", 0⟩, false, none, [Call.GetBlockByHash "aa"]⟩,
        Except.error "Error while retrieving block aa from node, wrong node hash") := by
  decide!

/-- The error of C7 (amended) for a batch whose first candidate is orphaned and whose second
candidate has no block on the node. -/
theorem unlockCandidates_no_block_is_error_witness :
    (unlockCandidates
        (Collaborators.ofQuery (fun h =>
          if h = "bb" then Except.ok (some ⟨⟨11, "cc", 600, 1⟩⟩) else Except.ok none))
        ⟨⟨Float64.finite 0, "", 0⟩, false, none, []⟩
        ([⟨11, "bb", 0, false, 11, "n2", 7, none⟩] ++
          ⟨10, "aa", 0, false, 10, "n1", 5, none⟩ :: []) "candidates").2 =
      Except.error ("Error while retrieving block " ++ "aa" ++ " from node, wrong node hash") :=
  unlockCandidates_no_block_is_error _ _ [⟨11, "bb", 0, false, 11, "n2", 7, none⟩]
    ⟨10, "aa", 0, false, 10, "n1", 5, none⟩ [] "candidates"
    (by
      intro p hp
      rw [List.mem_singleton] at hp
      subst hp
      exact ⟨⟨⟨11, "cc", 600, 1⟩⟩, by decide!, by decide!⟩)
    (by decide!)

/-- C8 (amended). On a batch of ASCII hashes (the candidates' and the node's), when the loop
of `unlockCandidates` reaches a candidate (every earlier candidate was classified as
orphaned) for which the chain query returns a block: if `candidate.Hash` is not empty and
equals the returned block's hash ignoring letter case, the candidate is the one matured
block of the result, updated from the block; otherwise, in every result returned the
candidate stands with `Orphan = true` in the orphaned list, right after the earlier
candidates, and every matured block comes from a later candidate. -/
theorem unlockCandidates_classifies (env : Collaborators) (u : BlockUnlocker)
    (pre : List BlockData) (c : BlockData) (post : List BlockData) (blockType : String)
    (b : GetBlockHashReply)
    (_hascii : asciiHashes env (pre ++ c :: post))
    (hpre : ∀ p ∈ pre, ∃ b, env.GetBlockByHash p.Hash = Except.ok (some b) ∧
      matchCandidate b p = false)
    (hq : env.GetBlockByHash c.Hash = Except.ok (some b)) :
    ((0 < c.Hash.length ∧ EqualFold c.Hash b.BlockHeader.Hash = true) →
      (unlockCandidates env u (pre ++ c :: post) blockType).2 =
        Except.ok ⟨[{ c with
            Height := b.BlockHeader.Height
            Orphan := false
            Hash := b.BlockHeader.Hash
            Reward := b.BlockHeader.Reward }],
          pre.map (fun p => { p with Orphan := true }), (pre.length : ℤ), 1⟩) ∧
    (¬ (0 < c.Hash.length ∧ EqualFold c.Hash b.BlockHeader.Hash = true) →
      ∀ r, (unlockCandidates env u (pre ++ c :: post) blockType).2 = Except.ok r →
        (pre ++ [c]).map (fun p => { p with Orphan := true }) <+: r.orphanedBlocks ∧
        ∀ m ∈ r.maturedBlocks, ∃ c2 ∈ post, ∃ b2,
          env.GetBlockByHash c2.Hash = Except.ok (some b2) ∧ matchCandidate b2 c2 = true ∧
            m = (handleBlock b2 c2 blockType).1) := by
  constructor
  · intro hm
    have hmatch := (matchCandidate_iff b c).mpr hm
    unfold unlockCandidates
    rw [unlockCandidatesLoop_orphans env blockType pre (c :: post) u _ hpre]
    simp [unlockCandidatesLoop, hq, hmatch, handleBlock]
  · intro hm r hr
    have hmatch : matchCandidate b c = false := by
      rw [← Bool.not_eq_true]
      exact fun h => hm ((matchCandidate_iff b c).mp h)
    unfold unlockCandidates at hr
    rw [unlockCandidatesLoop_orphans env blockType pre (c :: post) u _ hpre] at hr
    simp only [unlockCandidatesLoop, hq, hmatch, Bool.false_eq_true, if_false] at hr
    obtain ⟨hpfx, hmat⟩ := unlockCandidatesLoop_extends env blockType post _ _ r hr
    refine ⟨?_, ?_⟩
    · simpa using hpfx
    · intro m hmem
      rcases hmat m hmem with h1 | h1
      · simp at h1
      · exact h1

/-- C8 as stated fails: a candidate with the empty hash, for which the node returns a block
with the empty hash, has a hash equal to the block's ignoring case and is classified as
orphaned, not as matured. -/
theorem unlockCandidates_empty_hash_orphaned :
    EqualFold "" "" = true ∧
    unlockCandidates (Collaborators.ofQuery (fun _ => Except.ok (some ⟨⟨10, "", 500, 1⟩⟩)))
        ⟨⟨Float64.finite 0, "", 0⟩, false, none, []⟩
        [⟨10, "", 0, false, 10, "n1", 5, none⟩] "candidates" =
      (⟨⟨Float64.finite 0, "", 0⟩, false, none, [Call.GetBlockByHash ""]⟩,
        Except.ok ⟨[], [⟨10, "", 0, true, 10, "n1", 5, none⟩], 1, 0⟩) := by
  decide!

/-- The classification of C8 (amended) for a candidate whose hash differs from the block's
only in letter case, after one orphaned candidate. -/
theorem unlockCandidates_classifies_witness :
    (unlockCandidates
        (Collaborators.ofQuery (fun h =>
          if h = "bb" then Except.ok (some ⟨⟨11, "cc", 600, 1⟩⟩)
          else Except.ok (some ⟨⟨10, "AA", 500, 1⟩⟩)))
        ⟨⟨Float64.finite 0, "", 0⟩, false, none, []⟩
        ([⟨11, "bb", 0, false, 11, "n2", 7, none⟩] ++
          ⟨9, "aa", 0, false, 10, "n1", 5, none⟩ :: []) "candidates").2 =
      Except.ok ⟨[⟨10, "AA", 500, false, 10, "n1", 5, none⟩],
        [⟨11, "bb", 0, true, 11, "n2", 7, none⟩], 1, 1⟩ :=
  (unlockCandidates_classifies _ _ [⟨11, "bb", 0, false, 11, "n2", 7, none⟩]
    ⟨9, "aa", 0, false, 10, "n1", 5, none⟩ [] "candidates" ⟨⟨10, "AA", 500, 1⟩⟩
    (by
      intro p hp
      simp only [List.singleton_append, List.mem_cons, List.mem_nil_iff, or_false] at hp
      rcases hp with rfl | rfl
      · refine ⟨by decide!, ?_⟩
        intro b hq
        obtain rfl : (⟨⟨11, "cc", 600, 1⟩⟩ : GetBlockHashReply) = b := by
          simpa [Collaborators.ofQuery] using hq
        decide!
      · refine ⟨by decide!, ?_⟩
        intro b hq
        obtain rfl : (⟨⟨10, "AA", 500, 1⟩⟩ : GetBlockHashReply) = b := by
          simpa [Collaborators.ofQuery] using hq
        decide!)
    (by
      intro p hp
      rw [List.mem_singleton] at hp
      subst hp
      exact ⟨⟨⟨11, "cc", 600, 1⟩⟩, by decide!, by decide!⟩)
    (by decide!)).1 (by decide!)

/-- C9. Evaluation at a batch of two candidates where the first is on the chain and the query
for the second fails: the loop ends at the first candidate, the failing query is never made,
and a result is returned instead of the error. -/
theorem unlockCandidates_skips_failing_query :
    unlockCandidates
        (Collaborators.ofQuery (fun h =>
          if h = "aa" then Except.ok (some ⟨⟨10, "aa", 500, 1⟩⟩)
          else Except.error "node unreachable"))
        ⟨⟨Float64.finite 0, "", 0⟩, false, none, []⟩
        [⟨10, "aa", 0, false, 10, "n1", 5, none⟩, ⟨11, "bb", 0, false, 11, "n2", 7, none⟩]
        "candidates" =
      (⟨⟨Float64.finite 0, "", 0⟩, false, none, [Call.GetBlockByHash "aa"]⟩,
        Except.ok ⟨[⟨10, "aa", 500, false, 10, "n1", 5, none⟩], [], 0, 1⟩) := by
  decide!

/-! ## The halt guard -/

/-- C10. In every unlocker state in which the halt flag is set, `unlockPendingBlocks` and
`unlockAndCreditMiners` return the state unchanged: no call to the node or to the store is
added to the trace, `halt` stays set and `lastFail` is unchanged; hence after any sequence
of ticks, whatever the collaborators do, the state is still the same and the flag is never
cleared. -/
theorem halt_suspends_sweeps (env : Collaborators) (envs : List Collaborators)
    (u : BlockUnlocker) (hhalt : u.halt = true) :
    unlockPendingBlocks env u = some u ∧ unlockAndCreditMiners env u = some u ∧
      runTicks envs u = some u := by
  have h1 : ∀ e, unlockPendingBlocks e u = some u := fun e => by
    simp [unlockPendingBlocks, hhalt]
  have h2 : ∀ e, unlockAndCreditMiners e u = some u := fun e => by
    simp [unlockAndCreditMiners, hhalt]
  refine ⟨h1 env, h2 env, ?_⟩
  induction envs with
  | nil => rfl
  | cons e es ih => simp [runTicks, tick, h1 e, h2 e, ih]

/-- The halt guard of C10 at a halted unlocker, for two ticks against a node that would
answer every query. -/
theorem halt_suspends_sweeps_witness :
    unlockPendingBlocks (Collaborators.ofQuery (fun _ => Except.ok none))
        ⟨⟨Float64.finite 0, "", 0⟩, true, some "node unreachable", [Call.GetInfo]⟩ =
      some ⟨⟨Float64.finite 0, "", 0⟩, true, some "node unreachable", [Call.GetInfo]⟩ ∧
    unlockAndCreditMiners (Collaborators.ofQuery (fun _ => Except.ok none))
        ⟨⟨Float64.finite 0, "", 0⟩, true, some "node unreachable", [Call.GetInfo]⟩ =
      some ⟨⟨Float64.finite 0, "", 0⟩, true, some "node unreachable", [Call.GetInfo]⟩ ∧
    runTicks [Collaborators.ofQuery (fun _ => Except.ok none),
        Collaborators.ofQuery (fun _ => Except.ok none)]
        ⟨⟨Float64.finite 0, "", 0⟩, true, some "node unreachable", [Call.GetInfo]⟩ =
      some ⟨⟨Float64.finite 0, "", 0⟩, true, some "node unreachable", [Call.GetInfo]⟩ :=
  halt_suspends_sweeps _ _ _ rfl

/-! ## Reward splitting: order independence and rounding error -/

theorem addTo_of_not_mem (m : RewardMap) (k : String) (v : ℤ)
    (hk : k ∉ m.map Prod.fst) : m.addTo k v = m ++ [(k, wrapInt64 (0 + v))] := by
  induction m with
  | nil => rfl
  | cons a m ih =>
    obtain ⟨k1, v1⟩ := a
    simp only [List.map_cons, List.mem_cons, not_or] at hk
    have hne : ¬ k1 = k := fun h => hk.1 h.symm
    simp only [RewardMap.addTo, if_neg hne, ih hk.2, List.cons_append]

theorem wrapInt64_zero_add_ParseInt64 (i : ℤ) : wrapInt64 (0 + ParseInt64 i) = ParseInt64 i := by
  rw [zero_add]
  exact wrapInt64_eq (ParseInt64_bounds i).1 (ParseInt64_bounds i).2

/-- For a ledger with distinct logins, none of them in the map yet, the loop appends one
entry per participant, in iteration order. -/
theorem loop_eq_append {total : ℤ} (ht : total ≠ 0) (reward : ℚ) (shares : Shares)
    (acc : RewardMap) (hnodup : (shares.map Prod.fst).Nodup)
    (hdisj : ∀ k ∈ shares.map Prod.fst, k ∉ acc.map Prod.fst) :
    calculateRewardsForSharesLoop total reward shares acc =
      some (acc ++ shares.map (fun e => (e.1, sharePayout reward total e.2))) := by
  induction shares generalizing acc with
  | nil => simp [calculateRewardsForSharesLoop]
  | cons a rest ih =>
    obtain ⟨k, n⟩ := a
    simp only [List.map_cons, List.nodup_cons] at hnodup
    have hk : k ∉ acc.map Prod.fst := hdisj k (by simp)
    have hstep : acc.addTo k (ParseInt64 (FloatString0 (reward * ((n : ℚ) / (total : ℚ))))) =
        acc ++ [(k, sharePayout reward total n)] := by
      rw [addTo_of_not_mem acc k _ hk, wrapInt64_zero_add_ParseInt64]
      rfl
    have hdisj2 : ∀ k2 ∈ rest.map Prod.fst,
        k2 ∉ (acc ++ [(k, sharePayout reward total n)]).map Prod.fst := by
      intro k2 hk2 hmem
      simp only [List.map_append, List.map_cons, List.map_nil, List.mem_append,
        List.mem_singleton] at hmem
      rcases hmem with h | h
      · exact hdisj k2 (by simp only [List.map_cons, List.mem_cons]; exact Or.inr hk2) h
      · exact hnodup.1 (h ▸ hk2)
    simp only [calculateRewardsForSharesLoop, workerRewardInt_of_ne_zero reward n ht, hstep]
    rw [ih _ hnodup.2 hdisj2]
    simp

theorem calculateRewardsForShares_eq_map {total : ℤ} (ht : total ≠ 0) (reward : ℚ)
    (shares : Shares) (hnodup : (shares.map Prod.fst).Nodup) :
    calculateRewardsForShares shares total reward =
      some (shares.map (fun e => (e.1, sharePayout reward total e.2))) := by
  unfold calculateRewardsForShares
  rw [loop_eq_append ht reward shares [] hnodup (by intro k _ h; cases h)]
  simp

theorem calculateRewardsForShares_zero_total (reward : ℚ) (shares : Shares) :
    calculateRewardsForShares shares 0 reward = if shares = [] then some [] else none := by
  cases shares with
  | nil => rfl
  | cons a rest =>
    obtain ⟨k, n⟩ := a
    simp [calculateRewardsForShares, calculateRewardsForSharesLoop, workerRewardInt, NewRat]

theorem get_of_not_mem_keys (m : RewardMap) (k : String) (hk : k ∉ m.map Prod.fst) :
    m.get k = 0 := by
  induction m with
  | nil => rfl
  | cons a m ih =>
    obtain ⟨k1, v1⟩ := a
    simp only [List.map_cons, List.mem_cons, not_or] at hk
    have hne : ¬ k1 = k := fun h => hk.1 h.symm
    simp only [RewardMap.get, if_neg hne, ih hk.2]

theorem get_of_mem (m : RewardMap) (k : String) (v : ℤ) (hnodup : (m.map Prod.fst).Nodup)
    (hmem : (k, v) ∈ m) : m.get k = v := by
  induction m with
  | nil => cases hmem
  | cons a m ih =>
    obtain ⟨k1, v1⟩ := a
    simp only [List.map_cons, List.nodup_cons] at hnodup
    rcases List.mem_cons.mp hmem with h | h
    · obtain ⟨h1, h2⟩ := Prod.mk.inj h
      simp only [RewardMap.get, h1, h2, if_true]
    · have hne : ¬ k1 = k := by
        intro hk
        apply hnodup.1
        rw [hk]
        exact List.mem_map_of_mem Prod.fst h
      simp only [RewardMap.get, if_neg hne, ih hnodup.2 h]

theorem get_eq_of_perm {m1 m2 : RewardMap} (hperm : m1.Perm m2)
    (hnodup : (m1.map Prod.fst).Nodup) (k : String) : m1.get k = m2.get k := by
  have hnodup2 : (m2.map Prod.fst).Nodup := (hperm.map Prod.fst).nodup_iff.mp hnodup
  by_cases hk : k ∈ m1.map Prod.fst
  · obtain ⟨e, he, hek⟩ := List.mem_map.mp hk
    obtain ⟨k1, v⟩ := e
    simp only at hek
    subst hek
    rw [get_of_mem m1 k1 v hnodup he, get_of_mem m2 k1 v hnodup2 (hperm.mem_iff.mp he)]
  · have hk2 : k ∉ m2.map Prod.fst := fun h => hk ((hperm.map Prod.fst).mem_iff.mpr h)
    rw [get_of_not_mem_keys m1 k hk, get_of_not_mem_keys m2 k hk2]

/-- C12. Reward splitting does not depend on the iteration order: for a share ledger with
distinct participants and every permutation of it, with the same reward and `totalShares`,
`calculateRewardsForShares` either panics on both (`totalShares = 0`) or returns on both,
and then the two payout maps have the same entries (same keys, same amounts), so every key
reads the same amount in both. -/
theorem calculateRewardsForShares_perm (shares1 shares2 : Shares) (total : ℤ) (reward : ℚ)
    (hperm : shares1.Perm shares2) (hnodup : (shares1.map Prod.fst).Nodup) :
    (calculateRewardsForShares shares1 total reward = none ∧
      calculateRewardsForShares shares2 total reward = none) ∨
    ∃ m1 m2, calculateRewardsForShares shares1 total reward = some m1 ∧
      calculateRewardsForShares shares2 total reward = some m2 ∧
      m1.Perm m2 ∧ ∀ k, m1.get k = m2.get k := by
  have hnodup2 : (shares2.map Prod.fst).Nodup := (hperm.map Prod.fst).nodup_iff.mp hnodup
  by_cases ht : total = 0
  · subst ht
    rw [calculateRewardsForShares_zero_total, calculateRewardsForShares_zero_total]
    by_cases h1 : shares1 = []
    · subst h1
      have h2 : shares2 = [] := List.Perm.eq_nil (hperm.symm)
      subst h2
      exact Or.inr ⟨[], [], rfl, rfl, List.Perm.refl _, fun _ => rfl⟩
    · have h2 : shares2 ≠ [] := fun h => h1 (List.Perm.eq_nil (h ▸ hperm))
      exact Or.inl ⟨if_neg h1, if_neg h2⟩
  · right
    have hp : (shares1.map (fun e => (e.1, sharePayout reward total e.2))).Perm
        (shares2.map (fun e => (e.1, sharePayout reward total e.2))) := hperm.map _
    refine ⟨_, _, calculateRewardsForShares_eq_map ht reward shares1 hnodup,
      calculateRewardsForShares_eq_map ht reward shares2 hnodup2, hp, ?_⟩
    intro k
    apply get_eq_of_perm hp
    simpa [List.map_map, Function.comp_def] using hnodup

/-- The order independence of C12 for the ledger `A:60, B:40` and its reversal. -/
theorem calculateRewardsForShares_perm_witness :
    (calculateRewardsForShares [("A", 60), ("B", 40)] 100 990 = none ∧
      calculateRewardsForShares [("B", 40), ("A", 60)] 100 990 = none) ∨
    ∃ m1 m2, calculateRewardsForShares [("A", 60), ("B", 40)] 100 990 = some m1 ∧
      calculateRewardsForShares [("B", 40), ("A", 60)] 100 990 = some m2 ∧
      m1.Perm m2 ∧ ∀ k, m1.get k = m2.get k :=
  calculateRewardsForShares_perm [("A", 60), ("B", 40)] [("B", 40), ("A", 60)] 100 990
    (List.Perm.swap _ _ _) (by decide)

theorem abs_FloatString0_sub_le (x : ℚ) : |(FloatString0 x : ℚ) - x| ≤ 1 / 2 := by
  rw [abs_le]
  constructor
  · linarith [sub_half_le_FloatString0 x]
  · linarith [FloatString0_le_add_half x]

theorem sharePayout_eq_round {reward : ℚ} {total n : ℤ}
    (hmin : minInt64 ≤ roundHalfAwayFromZero (reward * (n : ℚ) / (total : ℚ)))
    (hmax : roundHalfAwayFromZero (reward * (n : ℚ) / (total : ℚ)) ≤ maxInt64) :
    sharePayout reward total n = roundHalfAwayFromZero (reward * (n : ℚ) / (total : ℚ)) := by
  unfold sharePayout
  rw [← mul_div_assoc, FloatString0_eq_roundHalfAwayFromZero, ParseInt64_eq hmin hmax]

/-- Integers that are each within one half of a rational sum to within half their number
of the sum of the rationals. -/
theorem abs_sum_sub_le (shares : Shares) (g : ℤ → ℤ) (x : ℤ → ℚ)
    (h : ∀ e ∈ shares, |(g e.2 : ℚ) - x e.2| ≤ 1 / 2) :
    |(((shares.map (fun e => g e.2)).sum : ℤ) : ℚ) - (shares.map (fun e => x e.2)).sum| ≤
      (shares.length : ℚ) / 2 := by
  induction shares with
  | nil => simp
  | cons a rest ih =>
    have h1 := h a (List.mem_cons_self _ _)
    have h2 := ih (fun e he => h e (List.mem_cons_of_mem _ he))
    simp only [List.map_cons, List.sum_cons, List.length_cons]
    rw [abs_le] at h1 h2 ⊢
    push_cast at h2 ⊢
    constructor <;> linarith [h1.1, h1.2, h2.1, h2.2]

theorem sum_exact (reward : ℚ) (total : ℤ) (shares : Shares) :
    (shares.map (fun e => reward * (e.2 : ℚ) / (total : ℚ))).sum =
      reward * ((((shares.map Prod.snd).sum : ℤ) : ℚ) / (total : ℚ)) := by
  induction shares with
  | nil => simp
  | cons a rest ih =>
    simp only [List.map_cons, List.sum_cons, ih]
    push_cast
    ring

/-- C19. For every reward, `totalShares` different from 0 and share ledger with distinct
participants, `calculateRewardsForShares` returns, and the payout of each participant with
share count `n` is, whenever it fits in a signed 64-bit integer, the exact share
`reward × n / totalShares` rounded to the nearest integer with halves away from zero, so
it differs from its exact share by at most 1/2; when all payouts fit and the counts sum to
`totalShares`, the payouts of the `k` participants sum to within `k/2` of the distributed
reward. -/
theorem calculateRewardsForShares_rounding (shares : Shares) (total : ℤ) (reward : ℚ)
    (ht : total ≠ 0) (hnodup : (shares.map Prod.fst).Nodup) :
    ∃ m, calculateRewardsForShares shares total reward = some m ∧
      (∀ login n, (login, n) ∈ shares →
        minInt64 ≤ roundHalfAwayFromZero (reward * (n : ℚ) / (total : ℚ)) →
        roundHalfAwayFromZero (reward * (n : ℚ) / (total : ℚ)) ≤ maxInt64 →
        m.get login = roundHalfAwayFromZero (reward * (n : ℚ) / (total : ℚ)) ∧
          |(m.get login : ℚ) - reward * (n : ℚ) / (total : ℚ)| ≤ 1 / 2) ∧
      ((∀ e ∈ shares,
          minInt64 ≤ roundHalfAwayFromZero (reward * (e.2 : ℚ) / (total : ℚ)) ∧
            roundHalfAwayFromZero (reward * (e.2 : ℚ) / (total : ℚ)) ≤ maxInt64) →
        (shares.map Prod.snd).sum = total →
        |(m.total : ℚ) - reward| ≤ (shares.length : ℚ) / 2) := by
  have hkeys : ((shares.map (fun e => (e.1, sharePayout reward total e.2))).map
      Prod.fst).Nodup := by
    simpa [List.map_map, Function.comp_def] using hnodup
  have hclose : ∀ n : ℤ,
      minInt64 ≤ roundHalfAwayFromZero (reward * (n : ℚ) / (total : ℚ)) →
      roundHalfAwayFromZero (reward * (n : ℚ) / (total : ℚ)) ≤ maxInt64 →
      |(sharePayout reward total n : ℚ) - reward * (n : ℚ) / (total : ℚ)| ≤ 1 / 2 := by
    intro n hmin hmax
    rw [sharePayout_eq_round hmin hmax, ← FloatString0_eq_roundHalfAwayFromZero]
    exact abs_FloatString0_sub_le _
  refine ⟨_, calculateRewardsForShares_eq_map ht reward shares hnodup, ?_, ?_⟩
  · intro login n hmem hmin hmax
    have hin : (login, sharePayout reward total n) ∈
        shares.map (fun e => (e.1, sharePayout reward total e.2)) :=
      List.mem_map.mpr ⟨(login, n), hmem, rfl⟩
    rw [get_of_mem _ login _ hkeys hin]
    exact ⟨sharePayout_eq_round hmin hmax, hclose n hmin hmax⟩
  · intro hfit hsum
    have hT : ((total : ℤ) : ℚ) ≠ 0 := by exact_mod_cast ht
    have hbound := abs_sum_sub_le shares (fun n => sharePayout reward total n)
      (fun n => reward * (n : ℚ) / (total : ℚ))
      (fun e he => hclose e.2 (hfit e he).1 (hfit e he).2)
    rw [sum_exact, hsum, div_self hT, mul_one] at hbound
    simpa [RewardMap.total, List.map_map, Function.comp_def] using hbound

/-- The rounding of C19 for a reward of 100 and three participants with one share each. -/
theorem calculateRewardsForShares_rounding_witness :
    ∃ m, calculateRewardsForShares [("A", 1), ("B", 1), ("C", 1)] 3 100 = some m ∧
      (∀ login n, (login, n) ∈ ([("A", 1), ("B", 1), ("C", 1)] : Shares) →
        minInt64 ≤ roundHalfAwayFromZero (100 * (n : ℚ) / ((3 : ℤ) : ℚ)) →
        roundHalfAwayFromZero (100 * (n : ℚ) / ((3 : ℤ) : ℚ)) ≤ maxInt64 →
        m.get login = roundHalfAwayFromZero (100 * (n : ℚ) / ((3 : ℤ) : ℚ)) ∧
          |(m.get login : ℚ) - 100 * (n : ℚ) / ((3 : ℤ) : ℚ)| ≤ 1 / 2) ∧
      ((∀ e ∈ ([("A", 1), ("B", 1), ("C", 1)] : Shares),
          minInt64 ≤ roundHalfAwayFromZero (100 * (e.2 : ℚ) / ((3 : ℤ) : ℚ)) ∧
            roundHalfAwayFromZero (100 * (e.2 : ℚ) / ((3 : ℤ) : ℚ)) ≤ maxInt64) →
        (([("A", 1), ("B", 1), ("C", 1)] : Shares).map Prod.snd).sum = 3 →
        |(m.total : ℚ) - 100| ≤
          ((([("A", 1), ("B", 1), ("C", 1)] : Shares).length : ℕ) : ℚ) / 2) :=
  calculateRewardsForShares_rounding [("A", 1), ("B", 1), ("C", 1)] 3 100 (by decide)
    (by decide)

/-! ## Reward splitting: extra reward and fee address -/

theorem calculateRewards_of_no_extra {config : UnlockerConfig}
    {getShares : Int → String → Except Err Shares} {block : BlockData} {shares : Shares}
    {f p : ℚ} {m : RewardMap} (hfee : config.PoolFee = Float64.finite f)
    (hp : roundFloat64 (f / 100) = Float64.finite p)
    (hshares : getShares block.RoundHeight block.Nonce = Except.ok shares)
    (hm : calculateRewardsForShares shares block.TotalShares
      ((block.Reward : ℚ) - (block.Reward : ℚ) * p) = some m)
    (hx : block.ExtraReward = none) :
    calculateRewards config getShares block =
      some (Except.ok ⟨(block.Reward : ℚ), (block.Reward : ℚ) - (block.Reward : ℚ) * p,
        (block.Reward : ℚ) * p,
        if config.PoolFeeAddress.length ≠ 0 then
          m.addTo config.PoolFeeAddress (ParseInt64 (FloatString0 ((block.Reward : ℚ) * p)))
        else m⟩) := by
  unfold calculateRewards
  rw [hfee]
  simp only [chargeFee_of_quotient hp, hshares, hm, hx]

theorem calculateRewards_of_extra {config : UnlockerConfig}
    {getShares : Int → String → Except Err Shares} {block : BlockData} {shares : Shares}
    {f p : ℚ} {m : RewardMap} {e : ℤ} (hfee : config.PoolFee = Float64.finite f)
    (hp : roundFloat64 (f / 100) = Float64.finite p)
    (hshares : getShares block.RoundHeight block.Nonce = Except.ok shares)
    (hm : calculateRewardsForShares shares block.TotalShares
      ((block.Reward : ℚ) - (block.Reward : ℚ) * p) = some m)
    (hx : block.ExtraReward = some e) :
    calculateRewards config getShares block =
      some (Except.ok ⟨(block.Reward : ℚ) + (e : ℚ),
        (block.Reward : ℚ) - (block.Reward : ℚ) * p, (block.Reward : ℚ) * p + (e : ℚ),
        if config.PoolFeeAddress.length ≠ 0 then
          m.addTo config.PoolFeeAddress
            (ParseInt64 (FloatString0 ((block.Reward : ℚ) * p + (e : ℚ))))
        else m⟩) := by
  unfold calculateRewards
  rw [hfee]
  simp only [chargeFee_of_quotient hp, hshares, hm, hx]

theorem get_ite_addTo_ne (m : RewardMap) (addr login : String) (v : ℤ) (c : Prop)
    [Decidable c] (hne : login ≠ addr) :
    RewardMap.get (if c then m.addTo addr v else m) login = m.get login := by
  split_ifs
  · exact get_addTo_ne m v (Ne.symm hne)
  · rfl

/-- C13. For every block with an extra reward `e` present (fee finite, `TotalShares` not 0,
share lookup successful), `calculateRewards` returns, with `revenue = blockReward + e` and
`poolProfit = feeValue + e`, while `minersProfit` and the per-share payouts are those of the
same block with no extra reward: both payout maps are the same per-share map, up to the
credit of the fee address, so every other participant is paid the same. -/
theorem calculateRewards_extra_to_pool (config : UnlockerConfig)
    (getShares : Int → String → Except Err Shares) (block : BlockData) (shares : Shares)
    (f : ℚ) (e : ℤ) (hfee : config.PoolFee = Float64.finite f)
    (hf : |f| < (2 : ℚ) ^ (1024 : ℤ))
    (hshares : getShares block.RoundHeight block.Nonce = Except.ok shares)
    (htotal : block.TotalShares ≠ 0) (hx : block.ExtraReward = some e) :
    ∃ r0 r1 m minersProfit feeValue,
      chargeFee (block.Reward : ℚ) config.PoolFee = some (minersProfit, feeValue) ∧
      calculateRewards config getShares { block with ExtraReward := none } =
        some (Except.ok r0) ∧
      calculateRewards config getShares block = some (Except.ok r1) ∧
      r1.revenue = (block.Reward : ℚ) + (e : ℚ) ∧
      r1.poolProfit = feeValue + (e : ℚ) ∧
      r0.poolProfit = feeValue ∧
      r1.minersProfit = minersProfit ∧ r0.minersProfit = minersProfit ∧
      calculateRewardsForShares shares block.TotalShares minersProfit = some m ∧
      (∀ login, login ≠ config.PoolFeeAddress →
        r1.rewards.get login = m.get login ∧ r0.rewards.get login = m.get login) ∧
      (config.PoolFeeAddress.length = 0 → r1.rewards = m ∧ r0.rewards = m) := by
  obtain ⟨p, hp⟩ := roundFloat64_div_finite hf
  obtain ⟨m, hm, _, _⟩ :=
    loop_get htotal ((block.Reward : ℚ) - (block.Reward : ℚ) * p) shares []
  have h1 := @calculateRewards_of_extra config getShares block shares f p m e
    hfee hp hshares hm hx
  have h0 := @calculateRewards_of_no_extra config getShares
    { block with ExtraReward := none } shares f p m hfee hp hshares hm rfl
  refine ⟨_, _, m, _, _, by rw [hfee]; exact chargeFee_of_quotient hp _, h0, h1, rfl, rfl,
    rfl, rfl, rfl, hm, ?_, ?_⟩
  · intro login hne
    exact ⟨get_ite_addTo_ne m _ login _ _ hne, get_ite_addTo_ne m _ login _ _ hne⟩
  · intro hlen
    simp only [hlen, ne_eq, not_true_eq_false, if_false, and_self]

/-- The split of C13 for block reward 100, extra reward 50, fee 50%, shares `A:1, B:1`. -/
theorem calculateRewards_extra_to_pool_witness :
    ∃ r0 r1 m minersProfit feeValue,
      chargeFee ((100 : ℕ) : ℚ) (Float64.finite 50) = some (minersProfit, feeValue) ∧
      calculateRewards ⟨Float64.finite 50, "pool", 0⟩
          (fun _ _ => Except.ok [("A", 1), ("B", 1)])
          { (⟨0, "", 100, false, 0, "", 2, some 50⟩ : BlockData) with ExtraReward := none } =
        some (Except.ok r0) ∧
      calculateRewards ⟨Float64.finite 50, "pool", 0⟩
          (fun _ _ => Except.ok [("A", 1), ("B", 1)]) ⟨0, "", 100, false, 0, "", 2, some 50⟩ =
        some (Except.ok r1) ∧
      r1.revenue = ((100 : ℕ) : ℚ) + ((50 : ℤ) : ℚ) ∧
      r1.poolProfit = feeValue + ((50 : ℤ) : ℚ) ∧
      r0.poolProfit = feeValue ∧
      r1.minersProfit = minersProfit ∧ r0.minersProfit = minersProfit ∧
      calculateRewardsForShares [("A", 1), ("B", 1)] 2 minersProfit = some m ∧
      (∀ login, login ≠ "pool" →
        r1.rewards.get login = m.get login ∧ r0.rewards.get login = m.get login) ∧
      (("pool" : String).length = 0 → r1.rewards = m ∧ r0.rewards = m) :=
  calculateRewards_extra_to_pool ⟨Float64.finite 50, "pool", 0⟩
    (fun _ _ => Except.ok [("A", 1), ("B", 1)]) ⟨0, "", 100, false, 0, "", 2, some 50⟩
    [("A", 1), ("B", 1)] 50 50 rfl (by norm_num) rfl (by decide) rfl

theorem calculateRewards_eq {config : UnlockerConfig}
    {getShares : Int → String → Except Err Shares} {block : BlockData} {shares : Shares}
    {f p : ℚ} {m : RewardMap} (hfee : config.PoolFee = Float64.finite f)
    (hp : roundFloat64 (f / 100) = Float64.finite p)
    (hshares : getShares block.RoundHeight block.Nonce = Except.ok shares)
    (hm : calculateRewardsForShares shares block.TotalShares
      ((block.Reward : ℚ) - (block.Reward : ℚ) * p) = some m) :
    calculateRewards config getShares block =
      some (Except.ok ⟨
        (match block.ExtraReward with
          | some extraReward => (block.Reward : ℚ) + (extraReward : ℚ)
          | none => (block.Reward : ℚ)),
        (block.Reward : ℚ) - (block.Reward : ℚ) * p,
        (match block.ExtraReward with
          | some extraReward => (block.Reward : ℚ) * p + (extraReward : ℚ)
          | none => (block.Reward : ℚ) * p),
        if config.PoolFeeAddress.length ≠ 0 then
          m.addTo config.PoolFeeAddress (ParseInt64 (FloatString0
            (match block.ExtraReward with
              | some extraReward => (block.Reward : ℚ) * p + (extraReward : ℚ)
              | none => (block.Reward : ℚ) * p)))
        else m⟩) := by
  unfold calculateRewards
  rw [hfee]
  simp only [chargeFee_of_quotient hp, hshares, hm]

/-- C16 (amended). When a fee-collecting address is configured (fee finite, `TotalShares` not
0, share lookup successful), `calculateRewards` returns and the pool's integer credit is
added to that address's payout entry in `int64` arithmetic rather than overwriting it: the
address's final payout is its per-share payout (0 if it holds no shares) plus the integer
pool credit whenever that sum fits in a signed 64-bit integer (it wraps around otherwise),
and every other participant's payout is the same as without a fee address. -/
theorem calculateRewards_fee_address_accumulates (config : UnlockerConfig)
    (getShares : Int → String → Except Err Shares) (block : BlockData) (shares : Shares)
    (f : ℚ) (hfee : config.PoolFee = Float64.finite f) (hf : |f| < (2 : ℚ) ^ (1024 : ℤ))
    (haddr : config.PoolFeeAddress.length ≠ 0)
    (hshares : getShares block.RoundHeight block.Nonce = Except.ok shares)
    (htotal : block.TotalShares ≠ 0) :
    ∃ r0 r1 m,
      calculateRewards { config with PoolFeeAddress := "" } getShares block =
        some (Except.ok r0) ∧
      calculateRewards config getShares block = some (Except.ok r1) ∧
      calculateRewardsForShares shares block.TotalShares r1.minersProfit = some m ∧
      r0.rewards = m ∧
      r1.rewards.get config.PoolFeeAddress =
        wrapInt64 (m.get config.PoolFeeAddress + ParseInt64 (FloatString0 r1.poolProfit)) ∧
      (minInt64 ≤ m.get config.PoolFeeAddress + ParseInt64 (FloatString0 r1.poolProfit) →
        m.get config.PoolFeeAddress + ParseInt64 (FloatString0 r1.poolProfit) ≤ maxInt64 →
        r1.rewards.get config.PoolFeeAddress =
          m.get config.PoolFeeAddress + ParseInt64 (FloatString0 r1.poolProfit)) ∧
      (config.PoolFeeAddress ∉ shares.map Prod.fst → m.get config.PoolFeeAddress = 0) ∧
      ∀ login, login ≠ config.PoolFeeAddress → r1.rewards.get login = r0.rewards.get login := by
  obtain ⟨p, hp⟩ := roundFloat64_div_finite hf
  obtain ⟨m, hm, hout, _⟩ :=
    loop_get htotal ((block.Reward : ℚ) - (block.Reward : ℚ) * p) shares []
  have h1 := @calculateRewards_eq config getShares block shares f p m hfee hp hshares hm
  have h0 := @calculateRewards_eq { config with PoolFeeAddress := "" } getShares block
    shares f p m hfee hp hshares hm
  have hempty : ¬ (("" : String).length ≠ 0) := by decide
  simp only [if_neg hempty] at h0
  simp only [if_pos haddr] at h1
  refine ⟨_, _, m, h0, h1, hm, rfl, get_addTo_self m _ _, ?_, ?_, ?_⟩
  · intro hmin hmax
    simp only [get_addTo_self]
    exact wrapInt64_eq hmin hmax
  · intro hnot
    rw [hout _ hnot]
    rfl
  · intro login hne
    exact get_addTo_ne m _ (Ne.symm hne)

/-- C16 as stated fails: for block reward `2^64 − 1`, fee 50% and the fee address `pool`
holding the only share, the per-share payout and the pool credit are both `2^63 − 1`, and
the final payout of `pool` is their `int64` sum `−2`, not `2^64 − 2`. -/
theorem calculateRewards_fee_address_wraps :
    ∃ r, calculateRewards ⟨Float64.finite 50, "pool", 0⟩ (fun _ _ => Except.ok [("pool", 1)])
        ⟨0, "", 18446744073709551615, false, 0, "", 1, none⟩ = some (Except.ok r) ∧
      calculateRewardsForShares [("pool", 1)] 1 r.minersProfit =
        some [("pool", 9223372036854775807)] ∧
      ParseInt64 (FloatString0 r.poolProfit) = 9223372036854775807 ∧
      r.rewards.get "pool" = -2 ∧
      r.rewards.get "pool" ≠ 9223372036854775807 + 9223372036854775807 :=
  ⟨⟨18446744073709551615, 18446744073709551615 / 2, 18446744073709551615 / 2,
    [("pool", -2)]⟩, by decide!⟩

/-- The accumulation of C16 (amended) for block reward 1000, fee 50%, shares
`pool:1, A:1` and the fee address `pool`. -/
theorem calculateRewards_fee_address_accumulates_witness :
    ∃ r0 r1 m,
      calculateRewards { (⟨Float64.finite 50, "pool", 0⟩ : UnlockerConfig) with
          PoolFeeAddress := "" } (fun _ _ => Except.ok [("pool", 1), ("A", 1)])
          ⟨0, "", 1000, false, 0, "", 2, none⟩ = some (Except.ok r0) ∧
      calculateRewards ⟨Float64.finite 50, "pool", 0⟩
          (fun _ _ => Except.ok [("pool", 1), ("A", 1)])
          ⟨0, "", 1000, false, 0, "", 2, none⟩ = some (Except.ok r1) ∧
      calculateRewardsForShares [("pool", 1), ("A", 1)] 2 r1.minersProfit = some m ∧
      r0.rewards = m ∧
      r1.rewards.get "pool" =
        wrapInt64 (m.get "pool" + ParseInt64 (FloatString0 r1.poolProfit)) ∧
      (minInt64 ≤ m.get "pool" + ParseInt64 (FloatString0 r1.poolProfit) →
        m.get "pool" + ParseInt64 (FloatString0 r1.poolProfit) ≤ maxInt64 →
        r1.rewards.get "pool" = m.get "pool" + ParseInt64 (FloatString0 r1.poolProfit)) ∧
      ("pool" ∉ ([("pool", 1), ("A", 1)] : Shares).map Prod.fst → m.get "pool" = 0) ∧
      ∀ login, login ≠ "pool" → r1.rewards.get login = r0.rewards.get login :=
  calculateRewards_fee_address_accumulates ⟨Float64.finite 50, "pool", 0⟩
    (fun _ _ => Except.ok [("pool", 1), ("A", 1)]) ⟨0, "", 1000, false, 0, "", 2, none⟩
    [("pool", 1), ("A", 1)] 50 rfl (by norm_num) (by decide) rfl (by decide)

/-- C17 (amended). A candidate's extra reward is added after the fee is deducted: for every
block with extra reward `e` (fee finite, `TotalShares` not 0, share lookup successful),
`calculateRewards` returns, the pool fee is charged on `blockReward` alone, so
`minersProfit = blockReward − blockReward × φ` with `φ` the `float64` quotient
`feePercent / 100`, and `e` is added only to `poolProfit = blockReward × φ + e` and to
`revenue = blockReward + e`. -/
theorem calculateRewards_fee_on_block_reward (config : UnlockerConfig)
    (getShares : Int → String → Except Err Shares) (block : BlockData) (shares : Shares)
    (f : ℚ) (e : ℤ) (hfee : config.PoolFee = Float64.finite f)
    (hf : |f| < (2 : ℚ) ^ (1024 : ℤ))
    (hshares : getShares block.RoundHeight block.Nonce = Except.ok shares)
    (htotal : block.TotalShares ≠ 0) (hx : block.ExtraReward = some e) :
    ∃ r φ, config.PoolFee.divConst 100 = Float64.finite φ ∧
      calculateRewards config getShares block = some (Except.ok r) ∧
      r.minersProfit = (block.Reward : ℚ) - (block.Reward : ℚ) * φ ∧
      r.poolProfit = (block.Reward : ℚ) * φ + (e : ℚ) ∧
      r.revenue = (block.Reward : ℚ) + (e : ℚ) := by
  obtain ⟨p, hp⟩ := roundFloat64_div_finite hf
  obtain ⟨m, hm, _, _⟩ :=
    loop_get htotal ((block.Reward : ℚ) - (block.Reward : ℚ) * p) shares []
  have h1 := @calculateRewards_eq config getShares block shares f p m hfee hp hshares hm
  simp only [hx] at h1
  exact ⟨_, p, by rw [hfee]; exact hp, h1, rfl, rfl, rfl⟩

/-- C17 as stated fails: for block reward 100, extra reward 100 and fee 50% the miners'
profit is `100 − 100 × 50/100 = 50`, not `(100 + 100) − (100 + 100) × 50/100 = 100`. -/
theorem calculateRewards_fee_not_on_extra :
    calculateRewards ⟨Float64.finite 50, "", 0⟩ (fun _ _ => Except.ok [("A", 1)])
        ⟨0, "", 100, false, 0, "", 1, some 100⟩ =
      some (Except.ok ⟨200, 50, 150, [("A", 50)]⟩) ∧
    (50 : ℚ) ≠ (100 + 100) - (100 + 100) * 50 / 100 := by
  decide!

/-- The split of C17 (amended) for block reward 100, extra reward 100 and fee 50%. -/
theorem calculateRewards_fee_on_block_reward_witness :
    ∃ r φ, (Float64.finite 50).divConst 100 = Float64.finite φ ∧
      calculateRewards ⟨Float64.finite 50, "", 0⟩ (fun _ _ => Except.ok [("A", 1)])
        ⟨0, "", 100, false, 0, "", 1, some 100⟩ = some (Except.ok r) ∧
      r.minersProfit = ((100 : ℕ) : ℚ) - ((100 : ℕ) : ℚ) * φ ∧
      r.poolProfit = ((100 : ℕ) : ℚ) * φ + ((100 : ℤ) : ℚ) ∧
      r.revenue = ((100 : ℕ) : ℚ) + ((100 : ℤ) : ℚ) :=
  calculateRewards_fee_on_block_reward ⟨Float64.finite 50, "", 0⟩
    (fun _ _ => Except.ok [("A", 1)]) ⟨0, "", 100, false, 0, "", 1, some 100⟩ [("A", 1)]
    50 100 rfl (by norm_num) rfl (by decide) rfl

/-! ## Candidate confirmation: updated fields, processed prefix, re-confirmation -/

theorem EqualFold_self (s : String) : EqualFold s s = true := by
  simp [EqualFold]

theorem EqualFold_length {s t : String} (h : EqualFold s t = true) : s.length = t.length := by
  simp only [EqualFold, decide_eq_true_eq] at h
  have h2 := congrArg List.length h
  simpa using h2

/-- C15. For every candidate that `unlockCandidates` classifies as matured (every block of
the matured list of a returned result is such a candidate of the batch, with the block the
chain query returned for it), afterwards `Height`, `Hash` and `Reward` equal the height,
hash and reward of the returned block and `Orphan` is false, while `RoundHeight`, `Nonce`,
`TotalShares` and `ExtraReward` are unchanged. -/
theorem unlockCandidates_matured_fields (env : Collaborators) (u : BlockUnlocker)
    (candidates : List BlockData) (blockType : String) (r : UnlockResult)
    (h : (unlockCandidates env u candidates blockType).2 = Except.ok r) :
    ∀ m ∈ r.maturedBlocks, ∃ c ∈ candidates, ∃ b,
      env.GetBlockByHash c.Hash = Except.ok (some b) ∧ matchCandidate b c = true ∧
      m.Height = b.BlockHeader.Height ∧ m.Hash = b.BlockHeader.Hash ∧
      m.Reward = b.BlockHeader.Reward ∧ m.Orphan = false ∧
      m.RoundHeight = c.RoundHeight ∧ m.Nonce = c.Nonce ∧
      m.TotalShares = c.TotalShares ∧ m.ExtraReward = c.ExtraReward := by
  intro m hm
  obtain ⟨_, hmat⟩ := unlockCandidatesLoop_extends env blockType candidates u _ r h
  rcases hmat m hm with h1 | ⟨c, hc, b, hb, hmatch, heq⟩
  · cases h1
  · refine ⟨c, hc, b, hb, hmatch, ?_⟩
    subst heq
    simp [handleBlock]

/-- The fields of C15 for the matured block of a batch of one orphaned and one matured
candidate. -/
theorem unlockCandidates_matured_fields_witness :
    ∃ c ∈ ([⟨11, "bb", 0, false, 11, "n2", 7, none⟩,
        ⟨9, "aa", 0, true, 10, "n1", 5, some 3⟩] : List BlockData), ∃ b,
      (Collaborators.ofQuery (fun h =>
        if h = "bb" then Except.ok (some ⟨⟨11, "cc", 600, 1⟩⟩)
        else Except.ok (some ⟨⟨10, "AA", 500, 1⟩⟩))).GetBlockByHash c.Hash =
          Except.ok (some b) ∧ matchCandidate b c = true ∧
      (⟨10, "AA", 500, false, 10, "n1", 5, some 3⟩ : BlockData).Height = b.BlockHeader.Height ∧
      (⟨10, "AA", 500, false, 10, "n1", 5, some 3⟩ : BlockData).Hash = b.BlockHeader.Hash ∧
      (⟨10, "AA", 500, false, 10, "n1", 5, some 3⟩ : BlockData).Reward = b.BlockHeader.Reward ∧
      (⟨10, "AA", 500, false, 10, "n1", 5, some 3⟩ : BlockData).Orphan = false ∧
      (⟨10, "AA", 500, false, 10, "n1", 5, some 3⟩ : BlockData).RoundHeight = c.RoundHeight ∧
      (⟨10, "AA", 500, false, 10, "n1", 5, some 3⟩ : BlockData).Nonce = c.Nonce ∧
      (⟨10, "AA", 500, false, 10, "n1", 5, some 3⟩ : BlockData).TotalShares = c.TotalShares ∧
      (⟨10, "AA", 500, false, 10, "n1", 5, some 3⟩ : BlockData).ExtraReward = c.ExtraReward :=
  unlockCandidates_matured_fields
    (Collaborators.ofQuery (fun h =>
      if h = "bb" then Except.ok (some ⟨⟨11, "cc", 600, 1⟩⟩)
      else Except.ok (some ⟨⟨10, "AA", 500, 1⟩⟩)))
    ⟨⟨Float64.finite 0, "", 0⟩, false, none, []⟩
    [⟨11, "bb", 0, false, 11, "n2", 7, none⟩, ⟨9, "aa", 0, true, 10, "n1", 5, some 3⟩]
    "immature"
    ⟨[⟨10, "AA", 500, false, 10, "n1", 5, some 3⟩], [⟨11, "bb", 0, true, 11, "n2", 7, none⟩],
      1, 1⟩
    (by decide!) ⟨10, "AA", 500, false, 10, "n1", 5, some 3⟩ (List.mem_singleton.mpr rfl)

/-- A batch whose queries all return a block splits at its first matching candidate, or has
no matching candidate. -/
theorem first_match_split (env : Collaborators) (candidates : List BlockData)
    (hall : ∀ c ∈ candidates, ∃ b, env.GetBlockByHash c.Hash = Except.ok (some b)) :
    (∃ pre c post b, candidates = pre ++ c :: post ∧
      (∀ p ∈ pre, ∃ b, env.GetBlockByHash p.Hash = Except.ok (some b) ∧
        matchCandidate b p = false) ∧
      env.GetBlockByHash c.Hash = Except.ok (some b) ∧ matchCandidate b c = true) ∨
    (∀ p ∈ candidates, ∃ b, env.GetBlockByHash p.Hash = Except.ok (some b) ∧
      matchCandidate b p = false) := by
  induction candidates with
  | nil =>
    right
    intro p hp
    cases hp
  | cons c rest ih =>
    obtain ⟨b, hb⟩ := hall c (List.mem_cons_self _ _)
    by_cases hmatch : matchCandidate b c = true
    · exact Or.inl ⟨[], c, rest, b, rfl, (by intro p hp; cases hp), hb, hmatch⟩
    · have hno : matchCandidate b c = false := by simpa using hmatch
      rcases ih (fun p hp => hall p (List.mem_cons_of_mem _ hp)) with
        ⟨pre, c2, post, b2, hsplit, hpre, hb2, hm2⟩ | hnone
      · refine Or.inl ⟨c :: pre, c2, post, b2, by rw [hsplit]; rfl, ?_, hb2, hm2⟩
        intro p hp
        rcases List.mem_cons.mp hp with h | h
        · subst h; exact ⟨b, hb, hno⟩
        · exact hpre p h
      · right
        intro p hp
        rcases List.mem_cons.mp hp with h | h
        · subst h; exact ⟨b, hb, hno⟩
        · exact hnone p h

/-- C18. For every batch (of ASCII hashes, the candidates' and the node's) on which every
chain query succeeds with a block, `unlockCandidates` returns a result that covers exactly
the prefix of the input ending at
the first candidate whose hash matches: the orphaned list is the candidates before that
first match, in input order and marked as orphans, the matured list is that single
candidate, updated from its block, and no later candidate is in either list; if no
candidate matches, all are orphaned and the matured list is empty. In every case
`blocks` is the length of `maturedBlocks`, at most 1, and `orphans` is the length of
`orphanedBlocks`. -/
theorem unlockCandidates_first_match_prefix (env : Collaborators) (u : BlockUnlocker)
    (candidates : List BlockData) (blockType : String)
    (_hascii : asciiHashes env candidates)
    (hall : ∀ c ∈ candidates, ∃ b, env.GetBlockByHash c.Hash = Except.ok (some b)) :
    ∃ r, (unlockCandidates env u candidates blockType).2 = Except.ok r ∧
      r.blocks = (r.maturedBlocks.length : ℤ) ∧ r.maturedBlocks.length ≤ 1 ∧
      r.orphans = (r.orphanedBlocks.length : ℤ) ∧
      ((∃ pre c post b, candidates = pre ++ c :: post ∧
          (∀ p ∈ pre, ∃ b, env.GetBlockByHash p.Hash = Except.ok (some b) ∧
            matchCandidate b p = false) ∧
          env.GetBlockByHash c.Hash = Except.ok (some b) ∧ matchCandidate b c = true ∧
          r.maturedBlocks = [{ c with
            Height := b.BlockHeader.Height
            Orphan := false
            Hash := b.BlockHeader.Hash
            Reward := b.BlockHeader.Reward }] ∧
          r.orphanedBlocks = pre.map (fun p => { p with Orphan := true })) ∨
        ((∀ p ∈ candidates, ∃ b, env.GetBlockByHash p.Hash = Except.ok (some b) ∧
            matchCandidate b p = false) ∧
          r.maturedBlocks = [] ∧
          r.orphanedBlocks = candidates.map (fun p => { p with Orphan := true }))) := by
  rcases first_match_split env candidates hall with
    ⟨pre, c, post, b, hsplit, hpre, hb, hmatch⟩ | hnone
  · refine ⟨⟨[{ c with
        Height := b.BlockHeader.Height
        Orphan := false
        Hash := b.BlockHeader.Hash
        Reward := b.BlockHeader.Reward }],
      pre.map (fun p => { p with Orphan := true }), (pre.length : ℤ), 1⟩, ?_, ?_, ?_, ?_, ?_⟩
    · unfold unlockCandidates
      rw [hsplit, unlockCandidatesLoop_orphans env blockType pre (c :: post) u _ hpre]
      simp [unlockCandidatesLoop, hb, hmatch, handleBlock]
    · simp
    · simp
    · simp
    · exact Or.inl ⟨pre, c, post, b, hsplit, hpre, hb, hmatch, rfl, rfl⟩
  · refine ⟨⟨[], candidates.map (fun p => { p with Orphan := true }),
      (candidates.length : ℤ), 0⟩, ?_, ?_, ?_, ?_, ?_⟩
    · unfold unlockCandidates
      have h := unlockCandidatesLoop_orphans env blockType candidates [] u ⟨[], [], 0, 0⟩ hnone
      rw [List.append_nil] at h
      rw [h]
      simp [unlockCandidatesLoop]
    · simp
    · simp
    · simp
    · exact Or.inr ⟨hnone, rfl, rfl⟩

/-- The prefix of C18 for a batch of one orphaned candidate followed by two candidates that
are on the chain. -/
theorem unlockCandidates_first_match_prefix_witness :
    ∃ r, (unlockCandidates
        (Collaborators.ofQuery (fun h =>
          if h = "bb" then Except.ok (some ⟨⟨11, "cc", 600, 1⟩⟩)
          else Except.ok (some ⟨⟨10, h, 500, 1⟩⟩)))
        ⟨⟨Float64.finite 0, "", 0⟩, false, none, []⟩
        [⟨11, "bb", 0, false, 11, "n2", 7, none⟩, ⟨9, "aa", 0, false, 10, "n1", 5, none⟩,
          ⟨12, "dd", 0, false, 12, "n3", 9, none⟩] "candidates").2 = Except.ok r ∧
      r.blocks = (r.maturedBlocks.length : ℤ) ∧ r.maturedBlocks.length ≤ 1 ∧
      r.orphans = (r.orphanedBlocks.length : ℤ) ∧
      ((∃ pre c post b,
          ([⟨11, "bb", 0, false, 11, "n2", 7, none⟩, ⟨9, "aa", 0, false, 10, "n1", 5, none⟩,
            ⟨12, "dd", 0, false, 12, "n3", 9, none⟩] : List BlockData) = pre ++ c :: post ∧
          (∀ p ∈ pre, ∃ b, (Collaborators.ofQuery (fun h =>
              if h = "bb" then Except.ok (some ⟨⟨11, "cc", 600, 1⟩⟩)
              else Except.ok (some ⟨⟨10, h, 500, 1⟩⟩))).GetBlockByHash p.Hash =
                Except.ok (some b) ∧ matchCandidate b p = false) ∧
          (Collaborators.ofQuery (fun h =>
              if h = "bb" then Except.ok (some ⟨⟨11, "cc", 600, 1⟩⟩)
              else Except.ok (some ⟨⟨10, h, 500, 1⟩⟩))).GetBlockByHash c.Hash =
                Except.ok (some b) ∧ matchCandidate b c = true ∧
          r.maturedBlocks = [{ c with
            Height := b.BlockHeader.Height
            Orphan := false
            Hash := b.BlockHeader.Hash
            Reward := b.BlockHeader.Reward }] ∧
          r.orphanedBlocks = pre.map (fun p => { p with Orphan := true })) ∨
        ((∀ p ∈ ([⟨11, "bb", 0, false, 11, "n2", 7, none⟩,
              ⟨9, "aa", 0, false, 10, "n1", 5, none⟩,
              ⟨12, "dd", 0, false, 12, "n3", 9, none⟩] : List BlockData),
            ∃ b, (Collaborators.ofQuery (fun h =>
              if h = "bb" then Except.ok (some ⟨⟨11, "cc", 600, 1⟩⟩)
              else Except.ok (some ⟨⟨10, h, 500, 1⟩⟩))).GetBlockByHash p.Hash =
                Except.ok (some b) ∧ matchCandidate b p = false) ∧
          r.maturedBlocks = [] ∧
          r.orphanedBlocks =
            ([⟨11, "bb", 0, false, 11, "n2", 7, none⟩, ⟨9, "aa", 0, false, 10, "n1", 5, none⟩,
              ⟨12, "dd", 0, false, 12, "n3", 9, none⟩] : List BlockData).map
              (fun p => { p with Orphan := true }))) :=
  unlockCandidates_first_match_prefix _ _ _ _
    (by
      intro p hp
      simp only [List.mem_cons, List.mem_nil_iff, or_false] at hp
      rcases hp with rfl | rfl | rfl
      · refine ⟨by decide!, ?_⟩
        intro b hq
        obtain rfl : (⟨⟨11, "cc", 600, 1⟩⟩ : GetBlockHashReply) = b := by
          simpa [Collaborators.ofQuery] using hq
        decide!
      · refine ⟨by decide!, ?_⟩
        intro b hq
        obtain rfl : (⟨⟨10, "aa", 500, 1⟩⟩ : GetBlockHashReply) = b := by
          simpa [Collaborators.ofQuery] using hq
        decide!
      · refine ⟨by decide!, ?_⟩
        intro b hq
        obtain rfl : (⟨⟨10, "dd", 500, 1⟩⟩ : GetBlockHashReply) = b := by
          simpa [Collaborators.ofQuery] using hq
        decide!)
    (by
      intro c _
      by_cases h : c.Hash = "bb"
      · exact ⟨⟨⟨11, "cc", 600, 1⟩⟩, by simp [Collaborators.ofQuery, h]⟩
      · exact ⟨⟨⟨10, c.Hash, 500, 1⟩⟩, by simp [Collaborators.ofQuery, h]⟩)

/-- C14. Re-confirmation is idempotent: for every candidate `c` and chain state (a node that
can look up the hash it reported) in which `unlockCandidates([c])` classifies `c` as matured
and updates it to `c'` from the block `b`, running `unlockCandidates([c'])` against the
same chain state again classifies it as matured and leaves every field of `c'` unchanged,
and `calculateRewards` on it returns the same as the first time. -/
theorem unlockCandidates_reconfirm (env : Collaborators) (u u2 : BlockUnlocker)
    (c : BlockData) (b : GetBlockHashReply) (blockType : String)
    (config : UnlockerConfig)
    (hq : env.GetBlockByHash c.Hash = Except.ok (some b))
    (hmatch : matchCandidate b c = true)
    (hself : env.GetBlockByHash b.BlockHeader.Hash = Except.ok (some b)) :
    ∃ c1 c2, (unlockCandidates env u [c] blockType).2 = Except.ok ⟨[c1], [], 0, 1⟩ ∧
      (unlockCandidates env u2 [c1] blockType).2 = Except.ok ⟨[c2], [], 0, 1⟩ ∧
      c1 = (handleBlock b c blockType).1 ∧ c2 = c1 ∧
      calculateRewards config env.GetRoundShares c2 =
        calculateRewards config env.GetRoundShares c1 := by
  have hlen : 0 < b.BlockHeader.Hash.length := by
    obtain ⟨h1, h2⟩ := (matchCandidate_iff b c).mp hmatch
    rw [← EqualFold_length h2]
    exact h1
  have hmatch2 : matchCandidate b { c with
      Height := b.BlockHeader.Height
      Orphan := false
      Hash := b.BlockHeader.Hash
      Reward := b.BlockHeader.Reward } = true :=
    (matchCandidate_iff _ _).mpr ⟨hlen, EqualFold_self _⟩
  refine ⟨{ c with
      Height := b.BlockHeader.Height
      Orphan := false
      Hash := b.BlockHeader.Hash
      Reward := b.BlockHeader.Reward }, _, ?_, ?_, rfl, rfl, rfl⟩
  · simp [unlockCandidates, unlockCandidatesLoop, hq, hmatch, handleBlock]
  · simp [unlockCandidates, unlockCandidatesLoop, hself, hmatch2, handleBlock]

/-- The re-confirmation of C14 for a candidate whose stored hash differs in letter
case from the hash the node reports, against a node that looks hashes up ignoring case. -/
theorem unlockCandidates_reconfirm_witness :
    ∃ c1 c2, (unlockCandidates
        (Collaborators.ofQuery (fun h =>
          if EqualFold h "aa" = true then Except.ok (some ⟨⟨10, "aa", 500, 1⟩⟩)
          else Except.ok none))
        ⟨⟨Float64.finite 0, "", 0⟩, false, none, []⟩
        [⟨9, "AA", 0, false, 10, "n1", 5, none⟩] "immature").2 =
          Except.ok ⟨[c1], [], 0, 1⟩ ∧
      (unlockCandidates
        (Collaborators.ofQuery (fun h =>
          if EqualFold h "aa" = true then Except.ok (some ⟨⟨10, "aa", 500, 1⟩⟩)
          else Except.ok none))
        ⟨⟨Float64.finite 0, "", 0⟩, false, none, [Call.GetBlockByHash "AA"]⟩
        [c1] "immature").2 = Except.ok ⟨[c2], [], 0, 1⟩ ∧
      c1 = (handleBlock ⟨⟨10, "aa", 500, 1⟩⟩ ⟨9, "AA", 0, false, 10, "n1", 5, none⟩
        "immature").1 ∧ c2 = c1 ∧
      calculateRewards ⟨Float64.finite 1, "", 0⟩
          (Collaborators.ofQuery (fun h =>
            if EqualFold h "aa" = true then Except.ok (some ⟨⟨10, "aa", 500, 1⟩⟩)
            else Except.ok none)).GetRoundShares c2 =
        calculateRewards ⟨Float64.finite 1, "", 0⟩
          (Collaborators.ofQuery (fun h =>
            if EqualFold h "aa" = true then Except.ok (some ⟨⟨10, "aa", 500, 1⟩⟩)
            else Except.ok none)).GetRoundShares c1 :=
  unlockCandidates_reconfirm _ _ _ ⟨9, "AA", 0, false, 10, "n1", 5, none⟩
    ⟨⟨10, "aa", 500, 1⟩⟩ "immature" ⟨Float64.finite 1, "", 0⟩ (by decide!) (by decide!)
    (by decide!)

/-! ## The sweeps are fail-fast -/

theorem CleanSince.refl (env : Collaborators) (u : BlockUnlocker) :
    CleanSince env u.trace u :=
  ⟨[], by simp, by intro c hc; cases hc⟩

theorem CleanSince.call {env : Collaborators} {t0 : List Call} {u : BlockUnlocker}
    (h : CleanSince env t0 u) {c : Call} (hc : env.errorOf c = none) :
    CleanSince env t0 { u with trace := u.trace ++ [c] } := by
  obtain ⟨calls, htrace, hclean⟩ := h
  refine ⟨calls ++ [c], by simp [htrace], ?_⟩
  intro x hx
  rcases List.mem_append.mp hx with h1 | h1
  · exact hclean x h1
  · rw [List.mem_singleton] at h1
    rw [h1]
    exact hc

theorem CleanSince.failFast {env : Collaborators} {t0 : List Call} {u : BlockUnlocker}
    (h : CleanSince env t0 u) (halt : Bool) (lastFail : Option Err) :
    FailFast env t0 { u with halt := halt, lastFail := lastFail } := by
  obtain ⟨calls, htrace, hclean⟩ := h
  refine ⟨calls, htrace, ?_⟩
  intro pre c post err hsplit herr
  have hmem : c ∈ calls := by rw [hsplit]; simp
  rw [hclean c hmem] at herr
  cases herr

theorem CleanSince.failFast_self {env : Collaborators} {t0 : List Call} {u : BlockUnlocker}
    (h : CleanSince env t0 u) : FailFast env t0 u :=
  h.failFast u.halt u.lastFail

theorem CleanSince.failFast_call {env : Collaborators} {t0 : List Call} {u : BlockUnlocker}
    (h : CleanSince env t0 u) {c : Call} {err : Err} (hc : env.errorOf c = some err) :
    FailFast env t0 { u with trace := u.trace ++ [c], halt := true, lastFail := some err } := by
  obtain ⟨calls, htrace, hclean⟩ := h
  refine ⟨calls ++ [c], by simp [htrace], ?_⟩
  intro pre x post err2 hsplit herr
  rcases List.eq_nil_or_concat post with hpost | ⟨post2, z, hpost⟩
  · subst hpost
    have hx : x = c := by
      have h2 := congrArg List.getLast? hsplit
      simpa using h2.symm
    subst hx
    rw [hc] at herr
    exact ⟨rfl, rfl, by simpa using herr⟩
  · exfalso
    subst hpost
    have hcalls : calls = pre ++ x :: post2 := by
      have h2 : calls ++ [c] = (pre ++ x :: post2) ++ [z] := by
        rw [hsplit]; simp
      exact (List.append_inj' h2 rfl).1
    have hmem : x ∈ calls := by rw [hcalls]; simp
    rw [hclean x hmem] at herr
    cases herr

theorem errorOf_ok {α : Type} {x : Except Err α} {a : α} (h : x = Except.ok a) :
    Except.errorOf x = none := by
  rw [h]; rfl

theorem errorOf_error {α : Type} {x : Except Err α} {err : Err} (h : x = Except.error err) :
    Except.errorOf x = some err := by
  rw [h]; rfl

/-- The loop of `unlockCandidates` keeps the configuration, makes no call after a failed
one, and leaves the trace clean when it returns a result. -/
theorem unlockCandidatesLoop_clean (env : Collaborators) (blockType : String) (t0 : List Call)
    (candidates : List BlockData) (u : BlockUnlocker) (acc : UnlockResult)
    (h : CleanSince env t0 u) :
    (unlockCandidatesLoop env blockType candidates u acc).1.config = u.config ∧
    (∀ r, (unlockCandidatesLoop env blockType candidates u acc).2 = Except.ok r →
      CleanSince env t0 (unlockCandidatesLoop env blockType candidates u acc).1) ∧
    (∀ err, (unlockCandidatesLoop env blockType candidates u acc).2 = Except.error err →
      FailFast env t0 ((unlockCandidatesLoop env blockType candidates u acc).1.fail err)) := by
  induction candidates generalizing u acc with
  | nil =>
    refine ⟨rfl, fun _ _ => h, ?_⟩
    intro err herr
    simp [unlockCandidatesLoop] at herr
  | cons c rest ih =>
    cases hq : env.GetBlockByHash c.Hash with
    | error e =>
      have herrOf : env.errorOf (Call.GetBlockByHash c.Hash) = some e := errorOf_error hq
      simp only [unlockCandidatesLoop, hq]
      refine ⟨trivial, ?_, ?_⟩
      · intro r hr
        cases hr
      · intro err herr
        obtain rfl := Except.error.inj herr
        exact h.failFast_call herrOf
    | ok ob =>
      have herrOf : env.errorOf (Call.GetBlockByHash c.Hash) = none := errorOf_ok hq
      have hclean := h.call herrOf
      cases ob with
      | none =>
        simp only [unlockCandidatesLoop, hq]
        refine ⟨trivial, ?_, ?_⟩
        · intro r hr
          cases hr
        · intro err _
          exact hclean.failFast true (some err)
      | some b =>
        by_cases hmatch : matchCandidate b c = true
        · simp only [unlockCandidatesLoop, hq, hmatch, if_true, handleBlock]
          refine ⟨trivial, fun _ _ => hclean, ?_⟩
          intro err herr
          cases herr
        · simp only [unlockCandidatesLoop, hq, hmatch, Bool.false_eq_true, if_false]
          exact ih _ _ hclean

theorem calculateRewards_error {config : UnlockerConfig}
    {getShares : Int → String → Except Err Shares} {block : BlockData} {err : Err}
    (h : calculateRewards config getShares block = some (Except.error err)) :
    getShares block.RoundHeight block.Nonce = Except.error err := by
  unfold calculateRewards at h
  cases hc : chargeFee (block.Reward : ℚ) config.PoolFee with
  | none => simp [hc] at h
  | some pr =>
    obtain ⟨mp, pp⟩ := pr
    cases hs : getShares block.RoundHeight block.Nonce with
    | error e =>
      simp only [hc, hs] at h
      obtain rfl := Except.error.inj (Option.some.inj h)
      rfl
    | ok shares =>
      simp only [hc, hs] at h
      cases hm : calculateRewardsForShares shares block.TotalShares mp with
      | none => simp [hm] at h
      | some m => simp [hm] at h

theorem calculateRewards_ok {config : UnlockerConfig}
    {getShares : Int → String → Except Err Shares} {block : BlockData} {r : Rewards}
    (h : calculateRewards config getShares block = some (Except.ok r)) :
    ∃ shares, getShares block.RoundHeight block.Nonce = Except.ok shares := by
  unfold calculateRewards at h
  cases hc : chargeFee (block.Reward : ℚ) config.PoolFee with
  | none => simp [hc] at h
  | some pr =>
    obtain ⟨mp, pp⟩ := pr
    cases hs : getShares block.RoundHeight block.Nonce with
    | error e => simp [hc, hs] at h
    | ok shares => exact ⟨shares, rfl⟩

/-- The crediting loop of a sweep makes no call after a failed one. -/
theorem creditBlocks_failFast (env : Collaborators)
    (write : BlockData → RewardMap → Option Err) (writeCall : BlockData → RewardMap → Call)
    (hw : ∀ b r, env.errorOf (writeCall b r) = write b r) (t0 : List Call)
    (blocks : List BlockData) (u u2 : BlockUnlocker) (h : CleanSince env t0 u)
    (hrun : creditBlocks env write writeCall blocks u = some u2) : FailFast env t0 u2 := by
  induction blocks generalizing u with
  | nil =>
    simp only [creditBlocks] at hrun
    obtain rfl := Option.some.inj hrun
    exact h.failFast_self
  | cons block rest ih =>
    simp only [creditBlocks] at hrun
    cases hcalc : calculateRewards u.config env.GetRoundShares block with
    | none => simp [hcalc] at hrun
    | some res =>
      cases res with
      | error err =>
        simp only [hcalc] at hrun
        obtain rfl := Option.some.inj hrun
        have herrOf : env.errorOf (Call.GetRoundShares block.RoundHeight block.Nonce) =
            some err := errorOf_error (calculateRewards_error hcalc)
        exact h.failFast_call herrOf
      | ok r =>
        simp only [hcalc] at hrun
        obtain ⟨shares, hshares⟩ := calculateRewards_ok hcalc
        have hclean1 := h.call (c := Call.GetRoundShares block.RoundHeight block.Nonce)
          (errorOf_ok hshares)
        cases hwr : write block r.rewards with
        | some err =>
          simp only [hwr] at hrun
          obtain rfl := Option.some.inj hrun
          have herrOf : env.errorOf (writeCall block r.rewards) = some err := by
            rw [hw, hwr]
          exact hclean1.failFast_call herrOf
        | none =>
          simp only [hwr] at hrun
          have herrOf : env.errorOf (writeCall block r.rewards) = none := by
            rw [hw, hwr]
          exact ih _ (hclean1.call herrOf) hrun

/-- The orphan-writing loop makes no call after a failed one and leaves the trace clean
when it runs to its end. -/
theorem writeOrphans_clean (env : Collaborators) (t0 : List Call) (blocks : List BlockData)
    (u : BlockUnlocker) (h : CleanSince env t0 u) :
    (writeOrphans env blocks u).1.config = u.config ∧
    ((writeOrphans env blocks u).2 = true → CleanSince env t0 (writeOrphans env blocks u).1) ∧
    ((writeOrphans env blocks u).2 = false → FailFast env t0 (writeOrphans env blocks u).1) := by
  induction blocks generalizing u with
  | nil =>
    refine ⟨rfl, fun _ => h, ?_⟩
    intro hf
    simp [writeOrphans] at hf
  | cons block rest ih =>
    cases hwr : env.WriteOrphan block with
    | some err =>
      have herrOf : env.errorOf (Call.WriteOrphan block) = some err := hwr
      simp only [writeOrphans, hwr]
      refine ⟨rfl, ?_, fun _ => h.failFast_call herrOf⟩
      intro ht
      cases ht
    | none =>
      have herrOf : env.errorOf (Call.WriteOrphan block) = none := hwr
      simp only [writeOrphans, hwr]
      exact ih _ (h.call herrOf)

theorem calculateRewards_returns {config : UnlockerConfig}
    (getShares : Int → String → Except Err Shares) {block : BlockData} {f : ℚ}
    (hfee : config.PoolFee = Float64.finite f) (hf : |f| < (2 : ℚ) ^ (1024 : ℤ))
    (htotal : block.TotalShares ≠ 0) :
    ∃ res, calculateRewards config getShares block = some res := by
  obtain ⟨p, hp⟩ := roundFloat64_div_finite hf
  cases hs : getShares block.RoundHeight block.Nonce with
  | error err =>
    refine ⟨Except.error err, ?_⟩
    unfold calculateRewards
    rw [hfee]
    simp only [chargeFee_of_quotient hp, hs]
  | ok shares =>
    obtain ⟨m, hm, _, _⟩ :=
      loop_get htotal ((block.Reward : ℚ) - (block.Reward : ℚ) * p) shares []
    exact ⟨_, calculateRewards_eq hfee hp hs hm⟩

theorem creditBlocks_returns (env : Collaborators)
    (write : BlockData → RewardMap → Option Err) (writeCall : BlockData → RewardMap → Call)
    {f : ℚ} (hf : |f| < (2 : ℚ) ^ (1024 : ℤ)) (blocks : List BlockData)
    (hts : ∀ b ∈ blocks, b.TotalShares ≠ 0) (u : BlockUnlocker)
    (hfee : u.config.PoolFee = Float64.finite f) :
    ∃ u2, creditBlocks env write writeCall blocks u = some u2 := by
  induction blocks generalizing u with
  | nil => exact ⟨u, rfl⟩
  | cons block rest ih =>
    obtain ⟨res, hres⟩ := calculateRewards_returns env.GetRoundShares hfee hf
      (hts block (List.mem_cons_self _ _))
    simp only [creditBlocks, hres]
    cases res with
    | error err => exact ⟨_, rfl⟩
    | ok r =>
      simp only
      cases hwr : write block r.rewards with
      | some err => exact ⟨_, rfl⟩
      | none => exact ih (fun b hb => hts b (List.mem_cons_of_mem _ hb)) _ hfee

theorem unlockCandidates_matured_totalShares (env : Collaborators) (u : BlockUnlocker)
    (candidates : List BlockData) (blockType : String)
    (hts : ∀ c ∈ candidates, c.TotalShares ≠ 0) (r : UnlockResult)
    (h : (unlockCandidates env u candidates blockType).2 = Except.ok r) :
    ∀ m ∈ r.maturedBlocks, m.TotalShares ≠ 0 := by
  intro m hm
  obtain ⟨_, hmat⟩ := unlockCandidatesLoop_extends env blockType candidates u _ r h
  rcases hmat m hm with h1 | ⟨c, hc, b, _, _, heq⟩
  · cases h1
  · subst heq
    exact hts c hc

theorem unlockPendingBlocks_failFast (env : Collaborators) (u u2 : BlockUnlocker)
    (hrun : unlockPendingBlocks env u = some u2) : FailFast env u.trace u2 := by
  have h0 := CleanSince.refl env u
  unfold unlockPendingBlocks at hrun
  by_cases hhalt : u.halt = true
  · simp only [hhalt, if_true] at hrun
    obtain rfl := Option.some.inj hrun
    exact h0.failFast_self
  · simp only [hhalt, Bool.false_eq_true, if_false] at hrun
    cases hinfo : env.GetInfo with
    | error err =>
      simp only [hinfo] at hrun
      obtain rfl := Option.some.inj hrun
      exact h0.failFast_call (c := Call.GetInfo) (errorOf_error hinfo)
    | ok currentHeight =>
      simp only [hinfo] at hrun
      have h1 := h0.call (c := Call.GetInfo) (errorOf_ok hinfo)
      cases hcand : env.GetCandidates currentHeight with
      | error err =>
        simp only [hcand] at hrun
        obtain rfl := Option.some.inj hrun
        exact h1.failFast_call (c := Call.GetCandidates currentHeight) (errorOf_error hcand)
      | ok candidates =>
        simp only [hcand] at hrun
        have h2 := h1.call (c := Call.GetCandidates currentHeight) (errorOf_ok hcand)
        by_cases hlen : candidates.length = 0
        · simp only [hlen, if_true] at hrun
          obtain rfl := Option.some.inj hrun
          exact h2.failFast_self
        · simp only [hlen, if_false] at hrun
          obtain ⟨_, hok, herr⟩ := unlockCandidatesLoop_clean env "candidates" u.trace
            candidates _ ⟨[], [], 0, 0⟩ h2
          unfold unlockCandidates BlockUnlocker.call at hrun
          rcases hres : unlockCandidatesLoop env "candidates" candidates
            { u with trace := u.trace ++ [Call.GetInfo] ++ [Call.GetCandidates currentHeight] }
            ⟨[], [], 0, 0⟩ with ⟨u3, res⟩
          simp only [List.append_assoc] at hres hok herr
          simp only [List.append_assoc, hres] at hrun
          rw [hres] at hok herr
          cases res with
          | error err =>
            simp only at hrun
            obtain rfl := Option.some.inj hrun
            exact herr err rfl
          | ok result =>
            simp only at hrun
            have h3 : CleanSince env u.trace u3 := hok result rfl
            cases hwr : env.WritePendingOrphans result.orphanedBlocks with
            | some err =>
              simp only [hwr] at hrun
              obtain rfl := Option.some.inj hrun
              exact h3.failFast_call (c := Call.WritePendingOrphans result.orphanedBlocks) hwr
            | none =>
              simp only [hwr] at hrun
              exact creditBlocks_failFast env env.WriteImmatureBlock Call.WriteImmatureBlock
                (fun _ _ => rfl) u.trace result.maturedBlocks _ u2
                (h3.call (c := Call.WritePendingOrphans result.orphanedBlocks) hwr) hrun

theorem unlockAndCreditMiners_failFast (env : Collaborators) (u u2 : BlockUnlocker)
    (hrun : unlockAndCreditMiners env u = some u2) : FailFast env u.trace u2 := by
  have h0 := CleanSince.refl env u
  unfold unlockAndCreditMiners at hrun
  by_cases hhalt : u.halt = true
  · simp only [hhalt, if_true] at hrun
    obtain rfl := Option.some.inj hrun
    exact h0.failFast_self
  · simp only [hhalt, Bool.false_eq_true, if_false] at hrun
    cases hinfo : env.GetInfo with
    | error err =>
      simp only [hinfo] at hrun
      obtain rfl := Option.some.inj hrun
      exact h0.failFast_call (c := Call.GetInfo) (errorOf_error hinfo)
    | ok currentHeight =>
      simp only [hinfo] at hrun
      have h1 := h0.call (c := Call.GetInfo) (errorOf_ok hinfo)
      unfold BlockUnlocker.call at hrun
      simp only at hrun
      cases himm : env.GetImmatureBlocks (wrapInt64 (currentHeight - u.config.Depth)) with
      | error err =>
        simp only [himm] at hrun
        obtain rfl := Option.some.inj hrun
        exact h1.failFast_call
          (c := Call.GetImmatureBlocks (wrapInt64 (currentHeight - u.config.Depth)))
          (errorOf_error himm)
      | ok immature =>
        simp only [himm] at hrun
        have h2 := h1.call
          (c := Call.GetImmatureBlocks (wrapInt64 (currentHeight - u.config.Depth)))
          (errorOf_ok himm)
        by_cases hlen : immature.length = 0
        · simp only [hlen, if_true] at hrun
          obtain rfl := Option.some.inj hrun
          exact h2.failFast_self
        · simp only [hlen, if_false] at hrun
          obtain ⟨_, hok, herr⟩ := unlockCandidatesLoop_clean env "immature" u.trace
            immature _ ⟨[], [], 0, 0⟩ h2
          unfold unlockCandidates at hrun
          rcases hres : unlockCandidatesLoop env "immature" immature
            { u with trace := u.trace ++ [Call.GetInfo] ++
              [Call.GetImmatureBlocks (wrapInt64 (currentHeight - u.config.Depth))] }
            ⟨[], [], 0, 0⟩ with ⟨u3, res⟩
          simp only [List.append_assoc] at hres hok herr
          simp only [List.append_assoc, hres] at hrun
          rw [hres] at hok herr
          cases res with
          | error err =>
            simp only at hrun
            obtain rfl := Option.some.inj hrun
            exact herr err rfl
          | ok result =>
            simp only at hrun
            have h3 : CleanSince env u.trace u3 := hok result rfl
            obtain ⟨_, hwok, hwerr⟩ :=
              writeOrphans_clean env u.trace result.orphanedBlocks u3 h3
            rcases hwo : writeOrphans env result.orphanedBlocks u3 with ⟨u4, done⟩
            rw [hwo] at hwok hwerr hrun
            cases done with
            | false =>
              simp only at hrun
              obtain rfl := Option.some.inj hrun
              exact hwerr rfl
            | true =>
              simp only at hrun
              exact creditBlocks_failFast env env.WriteMaturedBlock Call.WriteMaturedBlock
                (fun _ _ => rfl) u.trace result.maturedBlocks _ u2 (hwok rfl) hrun

theorem unlockPendingBlocks_returns (env : Collaborators) (u : BlockUnlocker) {f : ℚ}
    (hfee : u.config.PoolFee = Float64.finite f) (hf : |f| < (2 : ℚ) ^ (1024 : ℤ))
    (hcand : ∀ h cs, env.GetCandidates h = Except.ok cs → ∀ c ∈ cs, c.TotalShares ≠ 0) :
    ∃ u2, unlockPendingBlocks env u = some u2 := by
  unfold unlockPendingBlocks
  by_cases hhalt : u.halt = true
  · exact ⟨u, by simp only [hhalt, if_true]⟩
  · simp only [hhalt, Bool.false_eq_true, if_false]
    cases hinfo : env.GetInfo with
    | error err => exact ⟨_, rfl⟩
    | ok currentHeight =>
      simp only
      cases hc : env.GetCandidates currentHeight with
      | error err => exact ⟨_, rfl⟩
      | ok candidates =>
        simp only
        by_cases hlen : candidates.length = 0
        · simp only [hlen, if_true]
          exact ⟨_, rfl⟩
        · simp only [hlen, if_false]
          have hclean := CleanSince.refl env
            ((u.call Call.GetInfo).call (Call.GetCandidates currentHeight))
          obtain ⟨hcfg, _, _⟩ := unlockCandidatesLoop_clean env "candidates" _ candidates
            ((u.call Call.GetInfo).call (Call.GetCandidates currentHeight)) ⟨[], [], 0, 0⟩
            hclean
          have hts := unlockCandidates_matured_totalShares env
            ((u.call Call.GetInfo).call (Call.GetCandidates currentHeight)) candidates
            "candidates" (hcand currentHeight candidates hc)
          unfold unlockCandidates at hts ⊢
          rcases hres : unlockCandidatesLoop env "candidates" candidates
            ((u.call Call.GetInfo).call (Call.GetCandidates currentHeight))
            ⟨[], [], 0, 0⟩ with ⟨u3, res⟩
          rw [hres] at hcfg hts
          cases res with
          | error err => exact ⟨_, rfl⟩
          | ok result =>
            simp only
            cases hwr : env.WritePendingOrphans result.orphanedBlocks with
            | some err => exact ⟨_, rfl⟩
            | none =>
              simp only
              exact creditBlocks_returns env _ _ hf result.maturedBlocks (hts result rfl) _
                (by
                  have h3 : u3.config = u.config := hcfg
                  simp only [BlockUnlocker.call, h3, hfee])

theorem unlockAndCreditMiners_returns (env : Collaborators) (u : BlockUnlocker) {f : ℚ}
    (hfee : u.config.PoolFee = Float64.finite f) (hf : |f| < (2 : ℚ) ^ (1024 : ℤ))
    (himm : ∀ h cs, env.GetImmatureBlocks h = Except.ok cs → ∀ c ∈ cs, c.TotalShares ≠ 0) :
    ∃ u2, unlockAndCreditMiners env u = some u2 := by
  unfold unlockAndCreditMiners
  by_cases hhalt : u.halt = true
  · exact ⟨u, by simp only [hhalt, if_true]⟩
  · simp only [hhalt, Bool.false_eq_true, if_false]
    cases hinfo : env.GetInfo with
    | error err => exact ⟨_, rfl⟩
    | ok currentHeight =>
      simp only
      cases hc : env.GetImmatureBlocks
          (wrapInt64 (currentHeight - (u.call Call.GetInfo).config.Depth)) with
      | error err => exact ⟨_, rfl⟩
      | ok immature =>
        simp only
        by_cases hlen : immature.length = 0
        · simp only [hlen, if_true]
          exact ⟨_, rfl⟩
        · simp only [hlen, if_false]
          have hclean := CleanSince.refl env
            ((u.call Call.GetInfo).call (Call.GetImmatureBlocks
              (wrapInt64 (currentHeight - (u.call Call.GetInfo).config.Depth))))
          obtain ⟨hcfg, _, _⟩ := unlockCandidatesLoop_clean env "immature" _ immature
            ((u.call Call.GetInfo).call (Call.GetImmatureBlocks
              (wrapInt64 (currentHeight - (u.call Call.GetInfo).config.Depth))))
            ⟨[], [], 0, 0⟩ hclean
          have hts := unlockCandidates_matured_totalShares env
            ((u.call Call.GetInfo).call (Call.GetImmatureBlocks
              (wrapInt64 (currentHeight - (u.call Call.GetInfo).config.Depth))))
            immature "immature" (himm _ immature hc)
          unfold unlockCandidates at hts ⊢
          rcases hres : unlockCandidatesLoop env "immature" immature
            ((u.call Call.GetInfo).call (Call.GetImmatureBlocks
              (wrapInt64 (currentHeight - (u.call Call.GetInfo).config.Depth))))
            ⟨[], [], 0, 0⟩ with ⟨u3, res⟩
          rw [hres] at hcfg hts
          cases res with
          | error err => exact ⟨_, rfl⟩
          | ok result =>
            simp only
            obtain ⟨hwcfg, _, _⟩ := writeOrphans_clean env u3.trace result.orphanedBlocks u3
              (CleanSince.refl env u3)
            rcases hwo : writeOrphans env result.orphanedBlocks u3 with ⟨u4, done⟩
            rw [hwo] at hwcfg
            cases done with
            | false => exact ⟨_, rfl⟩
            | true =>
              simp only
              exact creditBlocks_returns env _ _ hf result.maturedBlocks (hts result rfl) _
                (by
                  have h3 : u3.config = u.config := hcfg
                  have h4 : u4.config = u3.config := hwcfg
                  rw [h4, h3, hfee])

/-- C11. In both `unlockPendingBlocks` and `unlockAndCreditMiners`, whenever a collaborator
call (chain height, candidate fetch, block query, share lookup, or any write) made during
the sweep returned an error, the sweep ends with the halt flag set and `lastFail` equal to
that error, and that call is the last of the trace: no call, so no persistence write, is
made after it. Both sweeps return (no panic) when the fee is finite and no stored block has
`TotalShares = 0`. -/
theorem sweeps_fail_fast (env : Collaborators) (u : BlockUnlocker) :
    (∀ u2, unlockPendingBlocks env u = some u2 → FailFast env u.trace u2) ∧
    (∀ u2, unlockAndCreditMiners env u = some u2 → FailFast env u.trace u2) ∧
    (∀ f : ℚ, u.config.PoolFee = Float64.finite f → |f| < (2 : ℚ) ^ (1024 : ℤ) →
      (∀ h cs, env.GetCandidates h = Except.ok cs → ∀ c ∈ cs, c.TotalShares ≠ 0) →
      (∀ h cs, env.GetImmatureBlocks h = Except.ok cs → ∀ c ∈ cs, c.TotalShares ≠ 0) →
      ∃ u1 u2, unlockPendingBlocks env u = some u1 ∧ unlockAndCreditMiners env u = some u2) := by
  refine ⟨fun u2 h => unlockPendingBlocks_failFast env u u2 h,
    fun u2 h => unlockAndCreditMiners_failFast env u u2 h, ?_⟩
  intro f hfee hf hcand himm
  obtain ⟨u1, h1⟩ := unlockPendingBlocks_returns env u hfee hf hcand
  obtain ⟨u2, h2⟩ := unlockAndCreditMiners_returns env u hfee hf himm
  exact ⟨u1, u2, h1, h2⟩

/-- The fail-fast outcome of C11 for a pending sweep whose orphan write is rejected: the
halt flag is set, `lastFail` is the write's error, and the write is the last call. -/
theorem sweeps_fail_fast_witness :
    FailFast
      { Collaborators.ofQuery (fun _ => Except.ok (some ⟨⟨11, "cc", 600, 1⟩⟩)) with
        GetCandidates := fun _ => Except.ok [⟨10, "aa", 0, false, 10, "n1", 5, none⟩]
        WritePendingOrphans := fun _ => some "store down" }
      []
      ⟨⟨Float64.finite 1, "", 0⟩, true, some "store down",
        [Call.GetInfo, Call.GetCandidates 0, Call.GetBlockByHash "aa",
          Call.WritePendingOrphans [⟨10, "aa", 0, true, 10, "n1", 5, none⟩]]⟩ :=
  (sweeps_fail_fast
    { Collaborators.ofQuery (fun _ => Except.ok (some ⟨⟨11, "cc", 600, 1⟩⟩)) with
      GetCandidates := fun _ => Except.ok [⟨10, "aa", 0, false, 10, "n1", 5, none⟩]
      WritePendingOrphans := fun _ => some "store down" }
    ⟨⟨Float64.finite 1, "", 0⟩, false, none, []⟩).1 _ (by decide!)

end Unlocker
